import Mathlib

/-!
# csvstream.h: a shallow embedding

The C++ header `csvstream.h` defines one class, `csvstream`, that reads a
delimiter-separated text stream line by line: the constructor reads the header
line (`read_header`) and `operator>>` reads one data line into a caller-provided
`std::map<std::string, std::string>`.

The embedding below keeps the structure of the source:

* `std::string` is a list of characters;
* `std::istream` / `std::stringstream` is the list of unread characters together
  with the three `iostate` flags, and `std::getline` is modelled on it;
* `std::map` is an association list with `operator[]`-assignment and `size`;
* the two `while (getline(iss, token, delimiter))` loops are recursive functions
  whose fuel is the length of the line plus one (each successful `getline`
  consumes at least one character, so the fuel never runs out);
* an exception is a distinguished outcome, and so is the evaluation of
  `header[i]` with `i >= header.size()`, which `std::vector::operator[]` leaves
  undefined;
* the file system read by the file-name constructor is a parameter, a function
  from paths to file contents.
-/

namespace Csv

deriving instance DecidableEq for Except

/-! ## Strings and streams -/

/-- A `std::string`, as the list of its characters. -/
abbrev string := List Char

/-- The state of a `std::istream`: the characters not yet extracted and the
`eofbit`, `failbit` and `badbit` flags of its `iostate`. -/
structure istream where
  buf : string
  eofbit : Bool
  failbit : Bool
  badbit : Bool
deriving DecidableEq, Repr

namespace istream

/-- The call `std::ios::good()`: no flag is set. -/
def good (s : istream) : Bool := !s.eofbit && !s.failbit && !s.badbit

/-- The call `std::ios::fail()`: `failbit` or `badbit` is set. -/
def fail (s : istream) : Bool := s.failbit || s.badbit

/-- The conversion `static_cast<bool>(is)`, which is `!fail()`. -/
def to_bool (s : istream) : Bool := !s.fail

end istream

/-- The constructor `std::stringstream iss(line)`: a stream over the characters
of `line` with no flag set. -/
def stringstream (line : string) : istream :=
  { buf := line, eofbit := false, failbit := false, badbit := false }

/-- The character extraction of `std::getline` once its sentry has succeeded:
characters are moved to the result until the delimiter is met (it is extracted
and dropped) or the end of the input is reached.  The result is the extracted
string, the unread rest, and whether the end of the input was reached. -/
def extract_until (delim : Char) : string → string × string × Bool
  | [] => ([], [], true)
  | c :: cs =>
    if c = delim then ([], cs, false)
    else
      let r := extract_until delim cs
      (c :: r.1, r.2.1, r.2.2)

/-- The call `std::getline(is, str, delim)`, returning the new stream state and
the string read.  When the stream is not `good()` the sentry fails and `failbit`
is set.  Otherwise characters are extracted up to the delimiter or the end of
input; reaching the end sets `eofbit`, and `failbit` as well when no character
was extracted.  Both callers in `csvstream.h` use the string only when the
extraction succeeded, so the string returned on failure is empty. -/
def getline (is : istream) (delim : Char) : istream × string :=
  if is.good then
    let r := extract_until delim is.buf
    if r.2.2 then
      ({ is with buf := r.2.1, eofbit := true, failbit := r.1.isEmpty }, r.1)
    else
      ({ is with buf := r.2.1 }, r.1)
  else
    ({ is with failbit := true }, [])

/-! ## Rows -/

/-- The type `csvstream::header_type`, a `std::vector<std::string>`. -/
abbrev header_type := List string

/-- The type `csvstream::row_type`, a `std::map<std::string, std::string>`, as a
list of (key, value) pairs.  The source uses only `operator[]` and `size()` on
it, neither of which observes the order of the entries. -/
abbrev row_type := List (string × string)

namespace row_type

/-- The lookup `row.find(k)`: the value stored under `k`, if any. -/
def find (row : row_type) (k : string) : Option string :=
  match row with
  | [] => none
  | (k', v') :: rest => if k' = k then some v' else find rest k

/-- The assignment `row[k] = v`: the value under `k` is replaced when the key is
present, and a new entry is added otherwise. -/
def assign (row : row_type) (k v : string) : row_type :=
  match row with
  | [] => [(k, v)]
  | (k', v') :: rest => if k' = k then (k, v) :: rest else (k', v') :: assign rest k v

/-- The call `row.size()`. -/
def size (row : row_type) : Nat := row.length

end row_type

/-! ## The class `csvstream` -/

/-- The class `csvstream_exception`. -/
structure csvstream_exception where
  msg : string
deriving DecidableEq, Repr

/-- The data members of `csvstream`.  The member `fin` only holds the file
handle behind `is` when the object was built from a file name; `line_no` is a
`size_t`, which an input of fewer than `2^64` lines cannot wrap. -/
structure csvstream where
  is : istream
  filename : string
  delimiter : Char
  line_no : Nat
  header : header_type
deriving DecidableEq, Repr

/-- The loop `while (getline(iss, token, delimiter)) header.push_back(token);`
of `read_header`. -/
def header_loop (delimiter : Char) : Nat → istream → header_type → header_type
  | 0, _, header => header
  | fuel + 1, iss, header =>
    let r := getline iss delimiter
    if r.1.to_bool then header_loop delimiter fuel r.1 (header ++ [r.2])
    else header

/-- The loop `while (getline(iss, token, delimiter)) { row[header[i]] = token;
i += 1; }` of `operator>>`.  The result is `none` when `header[i]` is evaluated
with `i >= header.size()`. -/
def row_loop (header : header_type) (delimiter : Char) :
    Nat → istream → Nat → row_type → Option row_type
  | 0, _, _, row => some row
  | fuel + 1, iss, i, row =>
    let r := getline iss delimiter
    if r.1.to_bool then
      match header[i]? with
      | none => none
      | some name => row_loop header delimiter fuel r.1 (i + 1) (row.assign name r.2)
    else some row

namespace csvstream

/-- The member function `read_header`. -/
def read_header (s : csvstream) : Except csvstream_exception csvstream :=
  let r := getline s.is '\n'
  if !r.1.to_bool then
    .error ⟨"error reading header".toList⟩
  else
    .ok { s with
      is := r.1
      header := header_loop s.delimiter (r.2.length + 1) (stringstream r.2) s.header }

/-- The constructor `csvstream(std::istream &is, char delimiter)`: `line_no` is
set to `0`, `filename` and `header` are default-constructed, and `read_header`
runs. -/
def from_stream (is : istream) (delimiter : Char) : Except csvstream_exception csvstream :=
  read_header { is := is, filename := [], delimiter := delimiter, line_no := 0, header := [] }

/-- The conversion `explicit operator bool() const`. -/
def to_bool (s : csvstream) : Bool := s.is.to_bool

/-- The member function `getheader`. -/
def getheader (s : csvstream) : header_type := s.header

end csvstream

/-- What a call of `operator>>` can do: return, throw a `csvstream_exception`,
or evaluate `header[i]` with `i >= header.size()`.  The first two carry the
state of the object and of the caller's row at that point. -/
inductive outcome where
  | returned (s : csvstream) (row : row_type)
  | thrown (e : csvstream_exception) (s : csvstream) (row : row_type)
  | out_of_range
deriving DecidableEq, Repr

/-- The message built in `operator>>` when the sizes differ. -/
def arity_msg (s : csvstream) : string :=
  "Number of items in row does not match header. ".toList ++ s.filename ++ ":L".toList
    ++ (Nat.repr s.line_no).toList

namespace csvstream

/-- The member function `operator>>`. -/
def operator_rshift (s : csvstream) (row : row_type) : outcome :=
  let r := getline s.is '\n'
  if !r.1.to_bool then .returned { s with is := r.1 } row
  else
    let s1 := { s with is := r.1, line_no := s.line_no + 1 }
    match row_loop s.header s.delimiter (r.2.length + 1) (stringstream r.2) 0 row with
    | none => .out_of_range
    | some row1 =>
      if row1.size ≠ s.header.length then .thrown ⟨arity_msg s1⟩ s1 row1
      else .returned s1 row1

end csvstream

/-- An `std::istringstream` over `input`, as a test or a caller would pass to
the constructor. -/
def input_stream (input : String) : istream := stringstream input.toList

/-- The tokens that the successive calls `getline(iss, token, delimiter)` of a
`while` loop produce, in order. -/
def tokens_from (delimiter : Char) : Nat → istream → List string
  | 0, _ => []
  | fuel + 1, iss =>
    let r := getline iss delimiter
    if r.1.to_bool then r.2 :: tokens_from delimiter fuel r.1 else []

/-- The tokenization of a line: the tokens produced by the `getline` loop on
`std::stringstream iss(line)`. -/
def tokenize (line : string) (delimiter : Char) : List string :=
  tokens_from delimiter (line.length + 1) (stringstream line)

/-- The assignments `row[header[i]] = token; i += 1` carried out for a list of
tokens, starting at index `i`; `none` when `header[i]` is out of range. -/
def assign_tokens (header : header_type) : Nat → row_type → List string → Option row_type
  | _, row, [] => some row
  | i, row, t :: ts =>
    match header[i]? with
    | none => none
    | some name => assign_tokens header (i + 1) (row.assign name t) ts

/-- The calls `csvin >> row` made `n` times in a row on one row variable, as the
loop `while (csvin >> row)` makes them; a call that does not return ends the
sequence. -/
def advance_n : Nat → csvstream → row_type → outcome
  | 0, s, row => outcome.returned s row
  | n + 1, s, row =>
    match s.operator_rshift row with
    | outcome.returned s1 row1 => advance_n n s1 row1
    | o => o

/-- The calls `csvin >> row` made one after the other with the rows of a list,
the caller going on after a `csvstream_exception`; the result is the state of
the object after the last call, and `none` once `header[i]` has been evaluated
out of range. -/
def advances (s : csvstream) : List row_type → Option csvstream
  | [] => some s
  | row :: rows =>
    match s.operator_rshift row with
    | outcome.returned s1 _ => advances s1 rows
    | outcome.thrown _ s1 _ => advances s1 rows
    | outcome.out_of_range => none

/-- The constructor `csvstream(const std::string &filename, char delimiter)`.
The file system is not part of the source: `fs` gives the content of the file
at a path, `none` when `fin.open` fails.  The initializer list is
`is(fin), delimiter(delimiter), line_no(0)`: the member `filename` is not in it
and the body never assigns it, so it is default-constructed. -/
def csvstream.from_file (fs : string → Option string) (filename : string) (delimiter : Char) :
    Except csvstream_exception csvstream :=
  match fs filename with
  | none => .error ⟨"Error opening file: ".toList ++ filename⟩
  | some content =>
    csvstream.read_header
      { is := stringstream content, filename := [], delimiter := delimiter, line_no := 0,
        header := [] }

/-! ## Notions used to state the claims -/

/-- The strings of a list joined with the delimiter between them. -/
def join (d : Char) : List string → string
  | [] => []
  | [t] => t
  | t :: ts => t ++ d :: join d ts

/-- The text of a list of lines, a newline after each; the newline after the
last line is present or not. -/
def text (final_newline : Bool) : List string → string
  | [] => []
  | [l] => if final_newline then l ++ ['\n'] else l
  | l :: ls => l ++ '\n' :: text final_newline ls

/-- The stream delivers exactly the lines of the list to successive calls
`getline(is, line)`, and then fails. -/
def delivers : istream → List string → Prop
  | is, [] => (getline is '\n').1.to_bool = false
  | is, l :: ls =>
    (getline is '\n').1.to_bool = true ∧ (getline is '\n').2 = l ∧
      delivers (getline is '\n').1 ls

/-- The row is exactly the map `header[i] -> ts[i]`: it has as many entries as
the header has names, each name maps to the token at its position, and no other
key is present. -/
def row_is (header : header_type) (ts : List string) (row : row_type) : Prop :=
  row.size = header.length ∧
  (∀ (i : Nat) (name : string), header[i]? = some name →
    ∃ t : string, ts[i]? = some t ∧ row.find name = some t) ∧
  (∀ k : string, k ∉ header → row.find k = none)

/-- The number of tokens the claim on token counts gives for a line: the
occurrences of the delimiter, plus one when the line is not empty and does not
end with the delimiter. -/
def token_count (line : string) (d : Char) : Nat :=
  line.count d + (if line ≠ [] ∧ line.getLast? ≠ some d then 1 else 0)

/-! ## Objects used as examples -/

/-- The object built from the input `"a,b,c\n1,2,3\n"` with the delimiter `','`,
as the constructor leaves it. -/
def abc_stream : csvstream :=
  { is := stringstream "1,2,3\n".toList, filename := [], delimiter := ',', line_no := 0,
    header := ["a".toList, "b".toList, "c".toList] }

/-- The object built from the input `"a\n\n"` with the delimiter `','`: the
header is `[a]` and the only data line is empty. -/
def a_empty_line_stream : csvstream :=
  { is := stringstream "\n".toList, filename := [], delimiter := ',', line_no := 0,
    header := ["a".toList] }

/-- The object built from the input `"a,b\n1\n"` with the delimiter `','`. -/
def ab_short_stream : csvstream :=
  { is := stringstream "1\n".toList, filename := [], delimiter := ',', line_no := 0,
    header := ["a".toList, "b".toList] }

/-- An object whose stream has been read to its end. -/
def ab_end_stream : csvstream :=
  { is := stringstream [], filename := [], delimiter := ',', line_no := 1,
    header := ["a".toList, "b".toList] }

/-- The object built from the input `"a,a\n1,2\n"` with the delimiter `','`: the
header holds the name `a` twice. -/
def aa_stream : csvstream :=
  { is := stringstream "1,2\n".toList, filename := [], delimiter := ',', line_no := 0,
    header := ["a".toList, "a".toList] }

/-- The object built from the input `"a,b\n1\n2,3\n"` with the delimiter `','`:
a short line followed by a full one. -/
def ab_short_then_full_stream : csvstream :=
  { is := stringstream "1\n2,3\n".toList, filename := [], delimiter := ',', line_no := 0,
    header := ["a".toList, "b".toList] }

/-- A file system with one file, `test.csv`, whose content is `"a,b\n1\n"`. -/
def test_fs : string → Option string :=
  fun path => if path = "test.csv".toList then some "a,b\n1\n".toList else none

/-! ## Lemmas on streams and tokens -/

theorem extract_until_fst (d : Char) (cs : string) :
    (extract_until d cs).1 = cs.takeWhile (fun c => c != d) := by
  induction cs with
  | nil => rfl
  | cons c cs ih =>
    by_cases h : c = d
    · simp [extract_until, h]
    · simp [extract_until, h, ih, List.takeWhile_cons]

theorem extract_until_rest (d : Char) (cs : string) :
    (extract_until d cs).2.1 = (cs.dropWhile (fun c => c != d)).drop 1 := by
  induction cs with
  | nil => rfl
  | cons c cs ih =>
    by_cases h : c = d
    · simp [extract_until, h]
    · simp [extract_until, h, ih, List.dropWhile_cons]

theorem extract_until_eof (d : Char) (cs : string) :
    (extract_until d cs).2.2 = true ↔ d ∉ cs := by
  induction cs with
  | nil => simp [extract_until]
  | cons c cs ih =>
    by_cases h : c = d
    · simp [extract_until, h]
    · have h2 : ¬ d = c := fun e => h e.symm
      simp [extract_until, h, ih, h2]

theorem extract_until_length (d : Char) (cs : string) :
    (extract_until d cs).2.1.length + (extract_until d cs).1.length ≤ cs.length := by
  induction cs with
  | nil => simp [extract_until]
  | cons c cs ih =>
    by_cases h : c = d
    · simp [extract_until, h]
    · simp [extract_until, h]; omega

theorem extract_until_length_lt (d : Char) (cs : string)
    (h : (extract_until d cs).2.2 = false) :
    (extract_until d cs).2.1.length < cs.length := by
  induction cs with
  | nil => simp [extract_until] at h
  | cons c cs ih =>
    by_cases hc : c = d
    · simp [extract_until, hc]
    · simp [extract_until, hc] at h ⊢
      have := ih h
      omega

/-- A successful `getline` leaves strictly fewer unread characters. -/
theorem getline_buf_lt (is : istream) (d : Char) (h : (getline is d).1.to_bool = true) :
    (getline is d).1.buf.length < is.buf.length := by
  unfold getline at h ⊢
  by_cases hg : is.good = true
  · simp only [hg, if_true] at h ⊢
    by_cases he : (extract_until d is.buf).2.2 = true
    · simp only [he, if_true] at h ⊢
      simp [istream.to_bool, istream.fail, istream.good] at h hg
      have h1 := extract_until_length d is.buf
      have h2 : (extract_until d is.buf).1.length ≠ 0 := by
        intro h0
        exact h.1 (List.length_eq_zero.mp h0)
      show (extract_until d is.buf).2.1.length < is.buf.length
      omega
    · simp only [he] at h ⊢
      exact extract_until_length_lt d is.buf (by simpa using he)
  · simp [hg, istream.to_bool, istream.fail] at h

/-- A `getline` on a stream that is not `good()` fails. -/
theorem getline_not_good (is : istream) (d : Char) (h : is.good = false) :
    getline is d = ({ is with failbit := true }, []) := by
  simp [getline, h]

/-- A `getline` on a stream with no unread character fails. -/
theorem getline_nil_fails (is : istream) (d : Char) (h : is.buf = []) :
    (getline is d).1.to_bool = false := by
  unfold getline
  by_cases hg : is.good = true
  · simp [hg, h, extract_until, istream.to_bool, istream.fail]
  · simp [hg, istream.to_bool, istream.fail]

/-- A `getline` on a `good()` stream with an unread character succeeds: it
returns the characters before the first delimiter and leaves those after it. -/
theorem getline_good (is : istream) (d : Char) (hg : is.good = true) (hb : is.buf ≠ []) :
    (getline is d).1.to_bool = true ∧
    (getline is d).2 = is.buf.takeWhile (fun c => c != d) ∧
    (getline is d).1.buf = (is.buf.dropWhile (fun c => c != d)).drop 1 := by
  unfold getline
  simp only [hg, if_true]
  have e1 := extract_until_fst d is.buf
  have e2 := extract_until_rest d is.buf
  simp only [istream.good, Bool.and_eq_true, Bool.not_eq_true'] at hg
  by_cases he : (extract_until d is.buf).2.2 = true
  · simp only [he, if_true]
    refine ⟨?_, e1, e2⟩
    have hne : (extract_until d is.buf).1 ≠ [] := by
      rw [e1]
      have hnot := (extract_until_eof d is.buf).mp he
      cases hbuf : is.buf with
      | nil => exact absurd hbuf hb
      | cons c cs =>
        rw [hbuf] at hnot
        have : ¬ c = d := fun e => hnot (by simp [e])
        simp [List.takeWhile_cons, this]
    simp [istream.to_bool, istream.fail, hg.2, hne]
  · simp only [he]
    refine ⟨?_, e1, e2⟩
    simp [istream.to_bool, istream.fail, hg.2, hg.1.2]

/-- The loop of `read_header` appends the tokens of the `getline` loop. -/
theorem header_loop_eq (d : Char) (fuel : Nat) (iss : istream) (header : header_type) :
    header_loop d fuel iss header = header ++ tokens_from d fuel iss := by
  induction fuel generalizing iss header with
  | zero => simp [header_loop, tokens_from]
  | succ n ih =>
    by_cases h : (getline iss d).1.to_bool = true
    · simp [header_loop, tokens_from, h, ih]
    · simp [header_loop, tokens_from, h]

/-- The loop of `operator>>` assigns the tokens of the `getline` loop in order. -/
theorem row_loop_eq (header : header_type) (d : Char) (fuel : Nat) (iss : istream) (i : Nat)
    (row : row_type) :
    row_loop header d fuel iss i row = assign_tokens header i row (tokens_from d fuel iss) := by
  induction fuel generalizing iss i row with
  | zero => simp [row_loop, tokens_from, assign_tokens]
  | succ n ih =>
    by_cases h : (getline iss d).1.to_bool = true
    · simp only [row_loop, tokens_from, h, if_true, assign_tokens]
      cases header[i]? with
      | none => rfl
      | some name => exact ih _ _ _
    · simp [row_loop, tokens_from, h, assign_tokens]

/-- The fuel of the `getline` loop never runs out: any fuel above the number of
unread characters gives the same tokens. -/
theorem tokens_from_fuel (d : Char) (fuel fuel2 : Nat) (iss : istream)
    (h : iss.buf.length < fuel) (h2 : iss.buf.length < fuel2) :
    tokens_from d fuel iss = tokens_from d fuel2 iss := by
  induction fuel generalizing iss fuel2 with
  | zero => omega
  | succ n ih =>
    cases fuel2 with
    | zero => omega
    | succ m =>
      by_cases hs : (getline iss d).1.to_bool = true
      · have hlt := getline_buf_lt iss d hs
        simp only [tokens_from, hs, if_true]
        rw [ih m (getline iss d).1 (by omega) (by omega)]
      · simp [tokens_from, hs]

/-- The `getline` loop produces at most one token per unread character. -/
theorem tokens_from_length_le (d : Char) (fuel : Nat) (iss : istream) :
    (tokens_from d fuel iss).length ≤ iss.buf.length := by
  induction fuel generalizing iss with
  | zero => simp [tokens_from]
  | succ n ih =>
    by_cases hs : (getline iss d).1.to_bool = true
    · have hlt := getline_buf_lt iss d hs
      have := ih (getline iss d).1
      simp only [tokens_from, hs, if_true, List.length_cons]
      omega
    · simp [tokens_from, hs]

/-- Before the first delimiter, `extract_until` takes everything. -/
theorem extract_until_append (d : Char) (l rest : string) (h : d ∉ l) :
    extract_until d (l ++ d :: rest) = (l, rest, false) := by
  induction l with
  | nil => simp [extract_until]
  | cons c cs ih =>
    have hc : ¬ c = d := fun e => h (by simp [e])
    have hcs : d ∉ cs := fun e => h (by simp [e])
    simp [extract_until, hc, ih hcs]

/-- Without a delimiter, `extract_until` takes everything and reaches the end. -/
theorem extract_until_all (d : Char) (l : string) (h : d ∉ l) :
    extract_until d l = (l, [], true) := by
  induction l with
  | nil => simp [extract_until]
  | cons c cs ih =>
    have hc : ¬ c = d := fun e => h (by simp [e])
    have hcs : d ∉ cs := fun e => h (by simp [e])
    simp [extract_until, hc, ih hcs]

/-- A `getline` on a `good()` stream whose unread characters are `l`, the
delimiter and `rest` reads `l` and leaves `rest`, with no flag set. -/
theorem getline_line (is : istream) (d : Char) (l rest : string) (hg : is.good = true)
    (hb : is.buf = l ++ d :: rest) (h : d ∉ l) :
    getline is d = ({ is with buf := rest }, l) := by
  simp [getline, hg, hb, extract_until_append d l rest h]

/-- A `getline` on a `good()` stream whose unread characters are a non-empty
`l` without delimiter reads `l` and sets `eofbit` only. -/
theorem getline_last (is : istream) (d : Char) (l : string) (hg : is.good = true)
    (hb : is.buf = l) (hne : l ≠ []) (h : d ∉ l) :
    getline is d = ({ is with buf := [], eofbit := true, failbit := false }, l) := by
  simp [getline, hg, hb, extract_until_all d l h, hne]

/-- On a stream that is not `good()` the `getline` loop produces no token. -/
theorem tokens_from_not_good (d : Char) (fuel : Nat) (is : istream) (h : is.good = false) :
    tokens_from d fuel is = [] := by
  cases fuel with
  | zero => rfl
  | succ n =>
    simp [tokens_from, getline_not_good is d h, istream.to_bool, istream.fail]

/-- One turn of the `getline` loop on a string stream. -/
theorem tokens_from_stringstream (d : Char) (fuel : Nat) (cs : string) :
    tokens_from d (fuel + 1) (stringstream cs) =
      if cs = [] then []
      else (extract_until d cs).1 ::
        (if (extract_until d cs).2.2 = true then []
         else tokens_from d fuel (stringstream (extract_until d cs).2.1)) := by
  by_cases hcs : cs = []
  · subst hcs
    simp [tokens_from, getline, stringstream, istream.good, extract_until, istream.to_bool,
      istream.fail]
  · simp only [hcs, if_false]
    have hg := getline_good (stringstream cs) d rfl hcs
    have htok : (getline (stringstream cs) d).2 = (extract_until d cs).1 := by
      rw [hg.2.1, extract_until_fst]
      rfl
    simp only [tokens_from, hg.1, if_true, htok]
    congr 1
    by_cases he : (extract_until d cs).2.2 = true
    · simp only [he, if_true]
      apply tokens_from_not_good
      simp [getline, stringstream, istream.good, he]
    · simp only [he, if_false]
      congr 1
      simp [getline, stringstream, istream.good, he]

/-- The tokenization of the empty line. -/
theorem tokenize_nil (d : Char) : tokenize [] d = [] := by
  simp [tokenize, tokens_from_stringstream]

/-- The tokenization of a line that starts with the delimiter. -/
theorem tokenize_cons_delim (d : Char) (cs : string) :
    tokenize (d :: cs) d = [] :: tokenize cs d := by
  simp [tokenize, tokens_from_stringstream, extract_until]

/-- The tokenization of a line that starts with another character: the
character joins the first token of the rest, or is a token of its own when
nothing follows. -/
theorem tokenize_cons_other (d c : Char) (cs : string) (hc : c ≠ d) :
    tokenize (c :: cs) d =
      match tokenize cs d with
      | [] => [[c]]
      | t :: ts => (c :: t) :: ts := by
  by_cases hcs : cs = []
  · subst hcs
    simp [tokenize, tokens_from_stringstream, extract_until, hc]
  · have h1 : tokenize (c :: cs) d = tokens_from d (cs.length + 1 + 1) (stringstream (c :: cs)) :=
      rfl
    have h2 : tokenize cs d = tokens_from d (cs.length + 1) (stringstream cs) := rfl
    have e1 := tokens_from_stringstream d (cs.length + 1) (c :: cs)
    have e2 := tokens_from_stringstream d cs.length cs
    rw [h1, h2, e1, e2]
    simp only [hcs, if_false, extract_until, hc, reduceCtorEq]
    by_cases he : (extract_until d cs).2.2 = true
    · simp only [he, if_true]
    · simp only [he, if_false]
      have hlt := extract_until_length_lt d cs (by simpa using he)
      rw [tokens_from_fuel d (cs.length + 1) cs.length _ (by simp only [stringstream]; omega)
        (by simp only [stringstream]; omega)]

/-- A non-empty line has at least one token. -/
theorem tokenize_ne_nil (d : Char) (cs : string) (h : cs ≠ []) : tokenize cs d ≠ [] := by
  cases cs with
  | nil => exact absurd rfl h
  | cons c cs =>
    by_cases hc : c = d
    · subst hc
      simp [tokenize_cons_delim]
    · rw [tokenize_cons_other d c cs hc]
      cases tokenize cs d <;> simp

/-! ## Lemmas on the tokenization of a line -/

theorem join_cons (d : Char) (t : string) (ts : List string) (h : ts ≠ []) :
    join d (t :: ts) = t ++ d :: join d ts := by
  cases ts with
  | nil => exact absurd rfl h
  | cons t2 ts => rfl

theorem join_cons_cons (d c : Char) (t : string) (ts : List string) :
    join d ((c :: t) :: ts) = c :: join d (t :: ts) := by
  cases ts with
  | nil => rfl
  | cons t2 ts => rfl

/-- The tokenization of a line that starts with another character, when
something follows. -/
theorem tokenize_cons_other_cons (d c : Char) (cs : string) (hc : c ≠ d) (hcs : cs ≠ []) :
    ∃ t ts, tokenize cs d = t :: ts ∧ tokenize (c :: cs) d = (c :: t) :: ts := by
  have hne := tokenize_ne_nil d cs hcs
  rw [tokenize_cons_other d c cs hc]
  cases h : tokenize cs d with
  | nil => exact absurd h hne
  | cons t ts => exact ⟨t, ts, rfl, rfl⟩

/-- No token contains the delimiter. -/
theorem tokenize_mem_no_delim (d : Char) (line : string) :
    ∀ t ∈ tokenize line d, d ∉ t := by
  induction line with
  | nil => simp [tokenize_nil]
  | cons c cs ih =>
    by_cases hc : c = d
    · subst hc
      rw [tokenize_cons_delim]
      intro t ht
      rcases List.mem_cons.mp ht with h | h
      · subst h; simp
      · exact ih t h
    · by_cases hcs : cs = []
      · subst hcs
        rw [tokenize_cons_other d c [] hc, tokenize_nil]
        intro t ht
        have hd : ¬ d = c := fun e => hc e.symm
        simp only [List.mem_singleton] at ht
        subst ht
        simp [hd]
      · obtain ⟨t1, ts, h1, h2⟩ := tokenize_cons_other_cons d c cs hc hcs
        rw [h2]
        rw [h1] at ih
        intro t ht
        rcases List.mem_cons.mp ht with h | h
        · subst h
          have := ih t1 (List.mem_cons_self _ _)
          have hd : ¬ d = c := fun e => hc e.symm
          simp [hd, this]
        · exact ih t (List.mem_cons_of_mem _ h)

/-- Joining the tokens with the delimiter gives the line back, without its
final character when that is the delimiter. -/
theorem join_tokenize (d : Char) (line : string) :
    join d (tokenize line d) = if line.getLast? = some d then line.dropLast else line := by
  induction line with
  | nil => simp [tokenize_nil, join]
  | cons c cs ih =>
    by_cases hcs : cs = []
    · subst hcs
      by_cases hc : c = d
      · subst hc
        simp [tokenize_cons_delim, tokenize_nil, join]
      · rw [tokenize_cons_other d c [] hc, tokenize_nil]
        simp [join, hc]
    · obtain ⟨c2, cs2, rfl⟩ := List.exists_cons_of_ne_nil hcs
      have hlast : (c :: c2 :: cs2).getLast? = (c2 :: cs2).getLast? := List.getLast?_cons_cons
      have hdrop : (c :: c2 :: cs2).dropLast = c :: (c2 :: cs2).dropLast := rfl
      rw [hlast, hdrop]
      by_cases hc : c = d
      · subst hc
        rw [tokenize_cons_delim, join_cons c [] _ (tokenize_ne_nil c _ hcs), ih]
        split <;> simp
      · obtain ⟨t1, ts, h1, h2⟩ := tokenize_cons_other_cons d c _ hc hcs
        rw [h2, join_cons_cons, ← h1, ih]
        split <;> simp

/-- The tokens of a line up to and including a delimiter are followed by the
tokens of what comes after it. -/
theorem tokenize_append (d : Char) (pre rest : string) :
    tokenize (pre ++ d :: rest) d = tokenize (pre ++ [d]) d ++ tokenize rest d := by
  induction pre with
  | nil => simp [tokenize_cons_delim, tokenize_nil]
  | cons c p ih =>
    by_cases hc : c = d
    · subst hc
      simp only [List.cons_append, tokenize_cons_delim, ih]
    · obtain ⟨t1, ts, h1, h2⟩ := tokenize_cons_other_cons d c (p ++ [d]) hc (by simp)
      obtain ⟨t3, ts3, h3, h4⟩ := tokenize_cons_other_cons d c (p ++ d :: rest) hc (by simp)
      simp only [List.cons_append]
      rw [h2, h4]
      rw [ih, h1] at h3
      simp only [List.cons_append, List.cons.injEq] at h3
      rw [← h3.1, ← h3.2]
      rfl

/-- The number of tokens of a line. -/
theorem tokenize_length (d : Char) (line : string) :
    (tokenize line d).length = token_count line d := by
  induction line with
  | nil => simp [tokenize_nil, token_count]
  | cons c cs ih =>
    by_cases hcs : cs = []
    · subst hcs
      by_cases hc : c = d
      · subst hc
        simp [tokenize_cons_delim, tokenize_nil, token_count]
      · rw [tokenize_cons_other d c [] hc, tokenize_nil]
        have hcount : List.count d [c] = 0 := List.count_eq_zero.mpr (by simp [Ne.symm hc])
        simp [token_count, hc, hcount]
    · obtain ⟨c2, cs2, rfl⟩ := List.exists_cons_of_ne_nil hcs
      have hlast : (c :: c2 :: cs2).getLast? = (c2 :: cs2).getLast? := List.getLast?_cons_cons
      simp only [token_count, hlast, ne_eq, reduceCtorEq, not_false_eq_true, true_and] at ih ⊢
      by_cases hc : c = d
      · subst hc
        rw [tokenize_cons_delim, List.length_cons, ih, List.count_cons_self]
        omega
      · obtain ⟨t1, ts, h1, h2⟩ := tokenize_cons_other_cons d c _ hc hcs
        rw [h1, List.length_cons] at ih
        rw [h2, List.length_cons, ih, List.count_cons_of_ne (Ne.symm hc)]

/-- A first field without the delimiter, followed by the delimiter, is the
first token. -/
theorem tokenize_append_delim (d : Char) (t rest : string) (h : d ∉ t) :
    tokenize (t ++ d :: rest) d = t :: tokenize rest d := by
  induction t with
  | nil => simp [tokenize_cons_delim]
  | cons c cs ih =>
    have hc : c ≠ d := fun e => h (by simp [e])
    have hcs : d ∉ cs := fun e => h (by simp [e])
    simp only [List.cons_append]
    rw [tokenize_cons_other d c _ hc, ih hcs]

/-- A non-empty line without the delimiter is one token. -/
theorem tokenize_single (d : Char) (t : string) (h : d ∉ t) (hne : t ≠ []) :
    tokenize t d = [t] := by
  induction t with
  | nil => exact absurd rfl hne
  | cons c cs ih =>
    have hc : c ≠ d := fun e => h (by simp [e])
    have hcs : d ∉ cs := fun e => h (by simp [e])
    by_cases hn : cs = []
    · subst hn
      rw [tokenize_cons_other d c [] hc, tokenize_nil]
    · rw [tokenize_cons_other d c _ hc, ih hcs hn]

/-- Tokenizing the join of non-empty fields without the delimiter gives the
fields back. -/
theorem tokenize_join (d : Char) (ts : List string)
    (h : ∀ t ∈ ts, t ≠ [] ∧ d ∉ t) : tokenize (join d ts) d = ts := by
  induction ts with
  | nil => simp [join, tokenize_nil]
  | cons t ts ih =>
    have ht := h t (List.mem_cons_self _ _)
    by_cases hts : ts = []
    · subst hts
      exact tokenize_single d t ht.2 ht.1
    · rw [join_cons d t ts hts, tokenize_append_delim d t _ ht.2,
        ih (fun u hu => h u (List.mem_cons_of_mem _ hu))]

/-! ## Lemmas on rows -/

theorem size_assign_le (row : row_type) (k v : string) :
    (row.assign k v).size ≤ row.size + 1 := by
  induction row with
  | nil => simp [row_type.assign, row_type.size]
  | cons kv rest ih =>
    obtain ⟨k1, v1⟩ := kv
    by_cases h : k1 = k
    · simp [row_type.assign, row_type.size, h]
    · simp only [row_type.assign, row_type.size, h, if_false, List.length_cons] at ih ⊢
      omega

theorem size_assign_ge (row : row_type) (k v : string) :
    row.size ≤ (row.assign k v).size := by
  induction row with
  | nil => simp [row_type.assign, row_type.size]
  | cons kv rest ih =>
    obtain ⟨k1, v1⟩ := kv
    by_cases h : k1 = k
    · simp [row_type.assign, row_type.size, h]
    · simp only [row_type.assign, row_type.size, h, if_false, List.length_cons] at ih ⊢
      omega

theorem size_assign_new (row : row_type) (k v : string) (h : row.find k = none) :
    (row.assign k v).size = row.size + 1 := by
  induction row with
  | nil => simp [row_type.assign, row_type.size]
  | cons kv rest ih =>
    obtain ⟨k1, v1⟩ := kv
    by_cases hk : k1 = k
    · simp [row_type.find, hk] at h
    · simp only [row_type.find, hk, if_false] at h
      have := ih h
      simp only [row_type.assign, row_type.size, hk, if_false, List.length_cons] at this ⊢
      omega

theorem size_assign_old (row : row_type) (k v : string) (h : row.find k ≠ none) :
    (row.assign k v).size = row.size := by
  induction row with
  | nil => simp [row_type.find] at h
  | cons kv rest ih =>
    obtain ⟨k1, v1⟩ := kv
    by_cases hk : k1 = k
    · simp [row_type.assign, row_type.size, hk]
    · simp only [row_type.find, hk, if_false] at h
      have := ih h
      simp only [row_type.assign, row_type.size, hk, if_false, List.length_cons] at this ⊢
      omega

theorem find_assign_same (row : row_type) (k v : string) :
    (row.assign k v).find k = some v := by
  induction row with
  | nil => simp [row_type.assign, row_type.find]
  | cons kv rest ih =>
    obtain ⟨k1, v1⟩ := kv
    by_cases hk : k1 = k
    · simp [row_type.assign, row_type.find, hk]
    · simp [row_type.assign, row_type.find, hk, ih]

theorem find_assign_other (row : row_type) (k v k2 : string) (h : k2 ≠ k) :
    (row.assign k v).find k2 = row.find k2 := by
  induction row with
  | nil =>
    have : ¬ k = k2 := fun e => h e.symm
    simp [row_type.assign, row_type.find, this]
  | cons kv rest ih =>
    obtain ⟨k1, v1⟩ := kv
    by_cases hk : k1 = k
    · have : ¬ k = k2 := fun e => h e.symm
      have h3 : ¬ k1 = k2 := fun e => this (hk ▸ e)
      simp [row_type.assign, row_type.find, hk, this]
    · by_cases hk2 : k1 = k2
      · subst hk2
        simp [row_type.assign, row_type.find, hk]
      · simp [row_type.assign, row_type.find, hk, hk2, ih]

/-! ## Lemmas on the assignment of tokens -/

theorem assign_tokens_in_range (header : header_type) (i : Nat) (row : row_type)
    (ts : List string) (h : i + ts.length ≤ header.length) :
    ∃ row1, assign_tokens header i row ts = some row1 := by
  induction ts generalizing i row with
  | nil => exact ⟨row, rfl⟩
  | cons t ts ih =>
    simp only [List.length_cons] at h
    have hi : i < header.length := by omega
    simp only [assign_tokens, List.getElem?_eq_getElem hi]
    exact ih (i + 1) _ (by omega)

theorem assign_tokens_out_of_range (header : header_type) (i : Nat) (row : row_type)
    (ts : List string) (h : header.length < i + ts.length) (hi : i ≤ header.length) :
    assign_tokens header i row ts = none := by
  induction ts generalizing i row with
  | nil => simp at h; omega
  | cons t ts ih =>
    simp only [List.length_cons] at h
    by_cases hlt : i < header.length
    · simp only [assign_tokens, List.getElem?_eq_getElem hlt]
      exact ih (i + 1) _ (by omega) (by omega)
    · have : header[i]? = none := List.getElem?_eq_none (by omega)
      simp [assign_tokens, this]

theorem assign_tokens_size_le (header : header_type) (i : Nat) (row row1 : row_type)
    (ts : List string) (h : assign_tokens header i row ts = some row1) :
    row1.size ≤ row.size + ts.length := by
  induction ts generalizing i row with
  | nil =>
    simp only [assign_tokens, Option.some.injEq] at h
    simp [h]
  | cons t ts ih =>
    simp only [assign_tokens] at h
    cases hget : header[i]? with
    | none => simp [hget] at h
    | some name =>
      simp only [hget] at h
      have h1 := ih (i + 1) _ h
      have h2 := size_assign_le row name t
      simp only [List.length_cons]
      omega

theorem assign_tokens_size_ge (header : header_type) (i : Nat) (row row1 : row_type)
    (ts : List string) (h : assign_tokens header i row ts = some row1) :
    row.size ≤ row1.size := by
  induction ts generalizing i row with
  | nil =>
    simp only [assign_tokens, Option.some.injEq] at h
    simp [h]
  | cons t ts ih =>
    simp only [assign_tokens] at h
    cases hget : header[i]? with
    | none => simp [hget] at h
    | some name =>
      simp only [hget] at h
      have h1 := ih (i + 1) _ h
      have h2 := size_assign_ge row name t
      omega

/-- A key that is not among `header[i], header[i+1], ...` keeps its value. -/
theorem assign_tokens_find_other (header : header_type) (i : Nat) (row row1 : row_type)
    (ts : List string) (h : assign_tokens header i row ts = some row1) (k : string)
    (hk : ∀ j, i ≤ j → header[j]? ≠ some k) :
    row1.find k = row.find k := by
  induction ts generalizing i row with
  | nil =>
    simp only [assign_tokens, Option.some.injEq] at h
    simp [h]
  | cons t ts ih =>
    simp only [assign_tokens] at h
    cases hget : header[i]? with
    | none => simp [hget] at h
    | some name =>
      simp only [hget] at h
      have h1 := ih (i + 1) _ h (fun j hj => hk j (by omega))
      have hne : k ≠ name := by
        intro e
        exact hk i (Nat.le_refl i) (by rw [hget, e])
      rw [h1, find_assign_other row name t k hne]

/-- In a header without duplicates, a name occurs at one index only. -/
theorem nodup_getElem?_ne (header : header_type) (hnd : header.Nodup) (i j : Nat) (k : string)
    (hi : header[i]? = some k) (hij : i < j) : header[j]? ≠ some k := by
  intro hj
  have hjl : j < header.length := by
    by_contra hc
    have : header[j]? = none := List.getElem?_eq_none (by omega)
    rw [this] at hj
    exact Option.noConfusion hj
  have := (List.nodup_iff_getElem?_ne_getElem?.mp hnd) i j hij hjl
  exact this (by rw [hi, hj])

/-- With a header without duplicates, the token at position `j` of the list ends
up under the name `header[i + j]`. -/
theorem assign_tokens_find (header : header_type) (hnd : header.Nodup) (i : Nat)
    (row row1 : row_type) (ts : List string) (h : assign_tokens header i row ts = some row1)
    (j : Nat) (k : string) (hk : header[i + j]? = some k) (hj : j < ts.length) :
    row1.find k = ts[j]? := by
  induction ts generalizing i row j with
  | nil => simp at hj
  | cons t ts ih =>
    simp only [assign_tokens] at h
    cases hget : header[i]? with
    | none => simp [hget] at h
    | some name =>
      simp only [hget] at h
      cases j with
      | zero =>
        simp only [Nat.add_zero, hget, Option.some.injEq] at hk
        subst hk
        have h1 := assign_tokens_find_other header (i + 1) _ row1 ts h name
          (fun m hm => nodup_getElem?_ne header hnd i m name hget (by omega))
        rw [h1, find_assign_same]
        simp
      | succ j =>
        simp only [List.length_cons] at hj
        have hk2 : header[i + 1 + j]? = some k := by
          rw [← hk]; congr 1; omega
        have := ih (i + 1) _ h j hk2 (by omega)
        rw [this]
        simp

/-- With a header without duplicates, starting from a row that holds none of
the names `header[i], header[i+1], ...`, every token adds one entry. -/
theorem assign_tokens_size (header : header_type) (hnd : header.Nodup) (i : Nat)
    (row row1 : row_type) (ts : List string) (h : assign_tokens header i row ts = some row1)
    (hfresh : ∀ j k, i ≤ j → header[j]? = some k → row.find k = none) :
    row1.size = row.size + ts.length := by
  induction ts generalizing i row with
  | nil =>
    simp only [assign_tokens, Option.some.injEq] at h
    simp [h]
  | cons t ts ih =>
    simp only [assign_tokens] at h
    cases hget : header[i]? with
    | none => simp [hget] at h
    | some name =>
      simp only [hget] at h
      have hnew := size_assign_new row name t (hfresh i name (Nat.le_refl i) hget)
      have h1 := ih (i + 1) _ h (by
        intro j k hj hjk
        have hne : k ≠ name := by
          intro e
          exact nodup_getElem?_ne header hnd i j name hget (by omega) (by rw [hjk, e])
        rw [find_assign_other row name t k hne]
        exact hfresh j k (by omega) hjk)
      simp only [List.length_cons]
      omega

/-- A key that is not among the names the tokens are assigned to keeps its
value. -/
theorem assign_tokens_find_untouched (header : header_type) (i : Nat) (row row1 : row_type)
    (ts : List string) (h : assign_tokens header i row ts = some row1) (k : string)
    (hk : ∀ m, i ≤ m → m < i + ts.length → header[m]? ≠ some k) :
    row1.find k = row.find k := by
  induction ts generalizing i row with
  | nil =>
    simp only [assign_tokens, Option.some.injEq] at h
    simp [h]
  | cons t ts ih =>
    simp only [assign_tokens] at h
    simp only [List.length_cons] at hk
    cases hget : header[i]? with
    | none => simp [hget] at h
    | some name =>
      simp only [hget] at h
      have h1 := ih (i + 1) _ h (fun m hm hm2 => hk m (by omega) (by omega))
      have hne : k ≠ name := by
        intro e
        exact hk i (Nat.le_refl i) (by omega) (by rw [hget, e])
      rw [h1, find_assign_other row name t k hne]

/-- The token at position `j` ends up under the name `header[i + j]` when no
later token is assigned to the same name. -/
theorem assign_tokens_find_last (header : header_type) (i : Nat) (row row1 : row_type)
    (ts : List string) (h : assign_tokens header i row ts = some row1)
    (j : Nat) (k : string) (hk : header[i + j]? = some k) (hj : j < ts.length)
    (hlast : ∀ m, i + j < m → m < i + ts.length → header[m]? ≠ some k) :
    row1.find k = ts[j]? := by
  induction ts generalizing i row j with
  | nil => simp at hj
  | cons t ts ih =>
    simp only [assign_tokens] at h
    simp only [List.length_cons] at hj hlast
    cases hget : header[i]? with
    | none => simp [hget] at h
    | some name =>
      simp only [hget] at h
      cases j with
      | zero =>
        simp only [Nat.add_zero, hget, Option.some.injEq] at hk
        subst hk
        have h1 := assign_tokens_find_untouched header (i + 1) _ row1 ts h name
          (fun m hm hm2 => hlast m (by omega) (by omega))
        rw [h1, find_assign_same]
        simp
      | succ j =>
        have hk2 : header[i + 1 + j]? = some k := by
          rw [← hk]; congr 1; omega
        have := ih (i + 1) _ h j hk2 (by omega) (fun m hm hm2 => hlast m (by omega) (by omega))
        rw [this]
        simp

/-- When every name the tokens are assigned to is already a key of the row, the
row keeps its size. -/
theorem assign_tokens_size_present (header : header_type) (i : Nat) (row row1 : row_type)
    (ts : List string) (h : assign_tokens header i row ts = some row1)
    (hpres : ∀ j k, i ≤ j → header[j]? = some k → row.find k ≠ none) :
    row1.size = row.size := by
  induction ts generalizing i row with
  | nil =>
    simp only [assign_tokens, Option.some.injEq] at h
    simp [h]
  | cons t ts ih =>
    simp only [assign_tokens] at h
    cases hget : header[i]? with
    | none => simp [hget] at h
    | some name =>
      simp only [hget] at h
      have hold := size_assign_old row name t (hpres i name (Nat.le_refl i) hget)
      have h1 := ih (i + 1) _ h (by
        intro j k hj hjk
        by_cases e : k = name
        · rw [e, find_assign_same]; simp
        · rw [find_assign_other row name t k e]
          exact hpres j k (by omega) hjk)
      omega

/-- When one of the names the tokens are assigned to is already a key of the
row, the row grows by less than the number of tokens. -/
theorem assign_tokens_size_lt_of_present (header : header_type) (i : Nat)
    (row row1 : row_type) (ts : List string) (h : assign_tokens header i row ts = some row1)
    (j : Nat) (k : string) (hij : i ≤ j) (hj : j < i + ts.length) (hk : header[j]? = some k)
    (hpres : row.find k ≠ none) :
    row1.size < row.size + ts.length := by
  induction ts generalizing i row with
  | nil => simp at hj; omega
  | cons t ts ih =>
    simp only [assign_tokens] at h
    simp only [List.length_cons] at hj ⊢
    cases hget : header[i]? with
    | none => simp [hget] at h
    | some name =>
      simp only [hget] at h
      by_cases e : j = i
      · subst e
        rw [hget] at hk
        simp only [Option.some.injEq] at hk
        subst hk
        have hold := size_assign_old row name t hpres
        have hle := assign_tokens_size_le header (j + 1) _ row1 ts h
        omega
      · have hp2 : (row.assign name t).find k ≠ none := by
          by_cases e2 : k = name
          · rw [e2, find_assign_same]; simp
          · rw [find_assign_other row name t k e2]; exact hpres
        have h1 := ih (i + 1) _ h (by omega) (by omega) hp2
        have h2 := size_assign_le row name t
        omega

/-- When two of the tokens are assigned to the same name, the row grows by less
than the number of tokens. -/
theorem assign_tokens_size_lt_of_dup (header : header_type) (i : Nat)
    (row row1 : row_type) (ts : List string) (h : assign_tokens header i row ts = some row1)
    (j1 j2 : Nat) (k : string) (h1 : i ≤ j1) (h12 : j1 < j2) (h2 : j2 < i + ts.length)
    (hk1 : header[j1]? = some k) (hk2 : header[j2]? = some k) :
    row1.size < row.size + ts.length := by
  induction ts generalizing i row with
  | nil => simp at h2; omega
  | cons t ts ih =>
    simp only [assign_tokens] at h
    simp only [List.length_cons] at h2 ⊢
    cases hget : header[i]? with
    | none => simp [hget] at h
    | some name =>
      simp only [hget] at h
      have hsz := size_assign_le row name t
      by_cases e : j1 = i
      · subst e
        rw [hget] at hk1
        simp only [Option.some.injEq] at hk1
        subst hk1
        have := assign_tokens_size_lt_of_present header (j1 + 1) _ row1 ts h j2 name
          (by omega) (by omega) hk2 (by rw [find_assign_same]; simp)
        omega
      · have := ih (i + 1) _ h (by omega) (by omega)
        omega

/-- A header with a duplicate has one name at two indices. -/
theorem exists_dup_indices (header : header_type) (h : ¬ header.Nodup) :
    ∃ (j1 j2 : Nat) (k : string), j1 < j2 ∧ j2 < header.length ∧
      header[j1]? = some k ∧ header[j2]? = some k := by
  rw [List.nodup_iff_getElem?_ne_getElem?] at h
  push_neg at h
  obtain ⟨j1, j2, h12, h2, he⟩ := h
  have h1 : j1 < header.length := by omega
  refine ⟨j1, j2, header[j1], h12, h2, List.getElem?_eq_getElem h1, ?_⟩
  rw [← he, List.getElem?_eq_getElem h1]

/-! ## The read path of `operator>>` -/

/-- When `operator>>` reads a line, `line_no` is incremented, the tokens of the
line are assigned into the row passed in, and the size check decides between
throwing and returning. -/
theorem operator_rshift_read (s : csvstream) (row : row_type) (is1 : istream) (line : string)
    (hread : getline s.is '\n' = (is1, line)) (hok : is1.to_bool = true) :
    s.operator_rshift row =
      match assign_tokens s.header 0 row (tokenize line s.delimiter) with
      | none => outcome.out_of_range
      | some row1 =>
        if row1.size ≠ s.header.length then
          outcome.thrown ⟨arity_msg { s with is := is1, line_no := s.line_no + 1 }⟩
            { s with is := is1, line_no := s.line_no + 1 } row1
        else outcome.returned { s with is := is1, line_no := s.line_no + 1 } row1 := by
  unfold csvstream.operator_rshift
  simp only [hread, hok, Bool.not_true, Bool.false_eq_true, if_false, row_loop_eq]
  rfl

/-- When no line can be read, `operator>>` returns at once. -/
theorem operator_rshift_end (s : csvstream) (row : row_type)
    (hfail : (getline s.is '\n').1.to_bool = false) :
    s.operator_rshift row = outcome.returned { s with is := (getline s.is '\n').1 } row := by
  unfold csvstream.operator_rshift
  simp [hfail]

/-- A `getline` fails exactly when the stream is not `good()` or has no unread
character. -/
theorem getline_fails_iff (is : istream) (d : Char) :
    (getline is d).1.to_bool = false ↔ (is.good = false ∨ is.buf = []) := by
  constructor
  · intro h
    by_cases hg : is.good = true
    · by_cases hb : is.buf = []
      · exact Or.inr hb
      · rw [(getline_good is d hg hb).1] at h
        exact Bool.noConfusion h
    · exact Or.inl (by simpa using hg)
  · intro h
    cases h with
    | inl hg => rw [getline_not_good is d hg]; simp [istream.to_bool, istream.fail]
    | inr hb => exact getline_nil_fails is d hb

/-- After a failed `getline`, a further `getline` fails too and changes nothing. -/
theorem getline_failed_fix (is : istream) (d : Char) (h : (getline is d).1.to_bool = false) :
    getline (getline is d).1 d = ((getline is d).1, []) := by
  have hng : (getline is d).1.good = false := by
    simp only [istream.to_bool, istream.fail, Bool.not_eq_false', Bool.or_eq_true] at h
    simp only [istream.good]
    cases h with
    | inl h => simp [h]
    | inr h => simp [h]
  rw [getline_not_good _ d hng]
  have hf : (getline is d).1.failbit = true := by
    unfold getline at h ⊢
    by_cases hg : is.good = true
    · simp only [hg, if_true] at h ⊢
      simp only [istream.good, Bool.and_eq_true, Bool.not_eq_true'] at hg
      by_cases he : (extract_until d is.buf).2.2 = true
      · simp only [he, if_true] at h ⊢
        simpa [istream.to_bool, istream.fail, hg.2] using h
      · simp only [he] at h
        simp [istream.to_bool, istream.fail, hg.2, hg.1.2] at h
    · simp [hg]
  cases hx : (getline is d).1 with
  | mk b e f bad =>
    rw [hx] at hf
    simp only at hf
    subst hf
    rfl

/-- The constructor throws when the first `getline` fails. -/
theorem from_stream_error (is : istream) (d : Char)
    (h : (getline is '\n').1.to_bool = false) :
    csvstream.from_stream is d = .error ⟨"error reading header".toList⟩ := by
  simp [csvstream.from_stream, csvstream.read_header, h]

/-- The constructor succeeds when the first `getline` succeeds, and stores the
tokens of the line read as the header. -/
theorem from_stream_ok (is : istream) (d : Char) (h : (getline is '\n').1.to_bool = true) :
    csvstream.from_stream is d =
      .ok { is := (getline is '\n').1, filename := [], delimiter := d, line_no := 0,
            header := tokenize (getline is '\n').2 d } := by
  simp [csvstream.from_stream, csvstream.read_header, h, header_loop_eq, tokenize]

/-- The ways `operator>>` can end, and the state of the object in each. -/
theorem operator_rshift_cases (s : csvstream) (row : row_type) (is1 : istream) (line : string)
    (hread : getline s.is '\n' = (is1, line)) :
    (is1.to_bool = false ∧
      s.operator_rshift row = outcome.returned { s with is := is1 } row) ∨
    (is1.to_bool = true ∧
      (s.operator_rshift row = outcome.out_of_range ∨
       ∃ row1, assign_tokens s.header 0 row (tokenize line s.delimiter) = some row1 ∧
         ((row1.size ≠ s.header.length ∧ s.operator_rshift row =
            outcome.thrown ⟨arity_msg { s with is := is1, line_no := s.line_no + 1 }⟩
              { s with is := is1, line_no := s.line_no + 1 } row1) ∨
          (row1.size = s.header.length ∧ s.operator_rshift row =
            outcome.returned { s with is := is1, line_no := s.line_no + 1 } row1)))) := by
  by_cases hok : is1.to_bool = true
  · right
    refine ⟨hok, ?_⟩
    rw [operator_rshift_read s row is1 line hread hok]
    cases hrow : assign_tokens s.header 0 row (tokenize line s.delimiter) with
    | none => exact Or.inl rfl
    | some row1 =>
      right
      refine ⟨row1, rfl, ?_⟩
      by_cases hsz : row1.size = s.header.length
      · right
        exact ⟨hsz, by simp [hsz]⟩
      · left
        exact ⟨hsz, by simp [hsz]⟩
  · left
    have hf : is1.to_bool = false := by simpa using hok
    have hf2 : (getline s.is '\n').1.to_bool = false := by rw [hread]; exact hf
    have := operator_rshift_end s row hf2
    rw [hread] at this
    exact ⟨hf, this⟩

/-- A stream with no unread character, or not `good()`, delivers no line. -/
theorem delivers_nil (is : istream) (h : is.good = false ∨ is.buf = []) : delivers is [] :=
  (getline_fails_iff is '\n').mpr h

/-- A string stream over the text of non-empty lines without newline delivers
these lines. -/
theorem delivers_text (fn : Bool) (ls : List string)
    (h : ∀ l ∈ ls, l ≠ [] ∧ '\n' ∉ l) : delivers (stringstream (text fn ls)) ls := by
  induction ls with
  | nil => exact delivers_nil _ (Or.inr rfl)
  | cons l ls ih =>
    have hl := h l (List.mem_cons_self _ _)
    cases ls with
    | nil =>
      cases fn with
      | true =>
        have hg := getline_line (stringstream (l ++ ['\n'])) '\n' l [] rfl rfl hl.2
        refine ⟨?_, ?_, ?_⟩
        · simp only [text, if_true, hg]; rfl
        · simp only [text, if_true, hg]
        · simp only [text, if_true, hg]
          exact delivers_nil _ (Or.inr rfl)
      | false =>
        have hg := getline_last (stringstream l) '\n' l rfl rfl hl.1 hl.2
        refine ⟨?_, ?_, ?_⟩
        · simp only [text, Bool.false_eq_true, if_false, hg]; rfl
        · simp only [text, Bool.false_eq_true, if_false, hg]
        · simp only [text, Bool.false_eq_true, if_false, hg]
          exact delivers_nil _ (Or.inl rfl)
    | cons l2 ls2 =>
      have hg := getline_line (stringstream (l ++ '\n' :: text fn (l2 :: ls2))) '\n' l
        (text fn (l2 :: ls2)) rfl rfl hl.2
      refine ⟨?_, ?_, ?_⟩
      · simp only [text, hg]; rfl
      · simp only [text, hg]
      · simp only [text, hg]
        exact ih (fun u hu => h u (List.mem_cons_of_mem _ hu))

/-- Reading a line with as many tokens as the header has names, the names being
distinct, into a row that is empty or holds exactly the header's names: the call
returns and the row is exactly the map from the names to the tokens. -/
theorem read_full_line (s : csvstream) (row : row_type) (is1 : istream) (line : string)
    (hread : getline s.is '\n' = (is1, line)) (hok : is1.to_bool = true)
    (hnd : s.header.Nodup)
    (hlen : (tokenize line s.delimiter).length = s.header.length)
    (hrow : row = [] ∨ ∃ ts0, row_is s.header ts0 row) :
    ∃ row1, s.operator_rshift row =
        outcome.returned { s with is := is1, line_no := s.line_no + 1 } row1 ∧
      row_is s.header (tokenize line s.delimiter) row1 := by
  obtain ⟨row1, hrow1⟩ := assign_tokens_in_range s.header 0 row (tokenize line s.delimiter)
    (by omega)
  have hsize : row1.size = s.header.length := by
    rcases hrow with h0 | ⟨ts0, hsz, hfind, _⟩
    · subst h0
      have := assign_tokens_size s.header hnd 0 [] row1 _ hrow1 (fun _ _ _ _ => rfl)
      simp only [row_type.size, List.length_nil, Nat.zero_add] at this
      simp only [row_type.size]
      omega
    · have := assign_tokens_size_present s.header 0 row row1 _ hrow1 (by
        intro j k _ hjk
        obtain ⟨t, _, ht⟩ := hfind j k hjk
        rw [ht]; simp)
      omega
  have hother : ∀ k : string, k ∉ s.header → row.find k = none := by
    rcases hrow with h0 | ⟨ts0, _, _, hno⟩
    · subst h0; intro k _; rfl
    · exact hno
  refine ⟨row1, ?_, hsize, ?_, ?_⟩
  · rw [operator_rshift_read s row is1 line hread hok, hrow1]
    simp [hsize]
  · intro i name hi
    have hil : i < s.header.length := by
      by_contra hc
      have : s.header[i]? = none := List.getElem?_eq_none (by omega)
      rw [this] at hi
      exact Option.noConfusion hi
    have hit : i < (tokenize line s.delimiter).length := by omega
    refine ⟨(tokenize line s.delimiter)[i], List.getElem?_eq_getElem hit, ?_⟩
    have := assign_tokens_find s.header hnd 0 row row1 _ hrow1 i name (by simpa using hi) hit
    rw [this, List.getElem?_eq_getElem hit]
  · intro k hk
    have := assign_tokens_find_other s.header 0 row row1 _ hrow1 k (by
      intro j _ hj
      exact hk (List.getElem?_mem hj))
    rw [this]
    exact hother k hk

/-- The loop `while (csvin >> row)` over a stream that delivers lines with as
many tokens as the header has distinct names: call `j + 1` returns with the row
of line `j` and `line_no` advanced by `j + 1`, and the call after the last line
returns with the row unchanged and the object converting to `false`. -/
theorem advance_lines (lines : List string) :
    ∀ (s : csvstream) (row : row_type), s.header.Nodup →
    (∀ l ∈ lines, (tokenize l s.delimiter).length = s.header.length) →
    delivers s.is lines → (row = [] ∨ ∃ ts0, row_is s.header ts0 row) →
    (∀ (j : Nat) (l : string), lines[j]? = some l →
      ∃ sj rowj, advance_n (j + 1) s row = outcome.returned sj rowj ∧
        sj.line_no = s.line_no + (j + 1) ∧ row_is s.header (tokenize l s.delimiter) rowj) ∧
    (∃ sm rowm se, advance_n lines.length s row = outcome.returned sm rowm ∧
      advance_n (lines.length + 1) s row = outcome.returned se rowm ∧
      se.line_no = s.line_no + lines.length ∧ se.to_bool = false) := by
  induction lines with
  | nil =>
    intro s row _ _ hdel _
    refine ⟨fun j l h => by simp at h, s, row, { s with is := (getline s.is '\n').1 }, rfl, ?_,
      rfl, hdel⟩
    simp only [List.length_nil, Nat.zero_add, advance_n, operator_rshift_end s row hdel]
  | cons l ls ih =>
    intro s row hnd htok hdel hrow
    obtain ⟨hok, hl, hrest⟩ := hdel
    have hread : getline s.is '\n' = ((getline s.is '\n').1, l) := by
      rw [← hl]
    obtain ⟨row1, hop, hrow1⟩ := read_full_line s row _ l hread hok hnd
      (htok l (List.mem_cons_self _ _)) hrow
    obtain ⟨ih1, sm, rowm, se, h1, h2, h3, h4⟩ :=
      ih { s with is := (getline s.is '\n').1, line_no := s.line_no + 1 } row1 hnd
        (fun u hu => htok u (List.mem_cons_of_mem _ hu)) hrest (Or.inr ⟨_, hrow1⟩)
    refine ⟨?_, sm, rowm, se, ?_, ?_, ?_, h4⟩
    · intro j u hj
      cases j with
      | zero =>
        simp only [List.getElem?_cons_zero, Option.some.injEq] at hj
        subst hj
        exact ⟨{ s with is := (getline s.is '\n').1, line_no := s.line_no + 1 }, row1,
          by simp only [advance_n, hop], rfl, hrow1⟩
      | succ j =>
        simp only [List.getElem?_cons_succ] at hj
        obtain ⟨sj, rowj, e1, e2, e3⟩ := ih1 j u hj
        refine ⟨sj, rowj, ?_, ?_, e3⟩
        · simp only [advance_n, hop]
          exact e1
        · simp only at e2
          omega
    · simp only [List.length_cons, advance_n, hop]
      exact h1
    · simp only [List.length_cons, advance_n, hop]
      exact h2
    · simp only [List.length_cons] at h3 ⊢
      omega

/-- The character `c` is in no join of strings without it, when it is not the
delimiter. -/
theorem not_mem_join (d c : Char) (ts : List string) (hc : c ≠ d) (h : ∀ t ∈ ts, c ∉ t) :
    c ∉ join d ts := by
  induction ts with
  | nil => simp [join]
  | cons t ts ih =>
    have ht := h t (List.mem_cons_self _ _)
    by_cases hts : ts = []
    · subst hts
      exact ht
    · rw [join_cons d t ts hts]
      have := ih (fun u hu => h u (List.mem_cons_of_mem _ hu))
      simp [ht, hc, this]

/-- A non-empty list of non-empty strings has a non-empty join. -/
theorem join_ne_nil (d : Char) (ts : List string) (hne : ts ≠ []) (h : ∀ t ∈ ts, t ≠ []) :
    join d ts ≠ [] := by
  cases ts with
  | nil => exact absurd rfl hne
  | cons t ts =>
    have ht := h t (List.mem_cons_self _ _)
    by_cases hts : ts = []
    · subst hts
      exact ht
    · rw [join_cons d t ts hts]
      simp

/-- The state `operator>>` leaves, whether it returns or throws, has the header,
the delimiter and the file name of the state it started from. -/
theorem operator_rshift_frame (s s1 : csvstream) (row row1 : row_type)
    (h : s.operator_rshift row = outcome.returned s1 row1 ∨
      ∃ e, s.operator_rshift row = outcome.thrown e s1 row1) :
    s1.header = s.header ∧ s1.delimiter = s.delimiter ∧ s1.filename = s.filename := by
  rcases operator_rshift_cases s row (getline s.is '\n').1 (getline s.is '\n').2 rfl with
    ⟨_, hr⟩ | ⟨_, hr | ⟨row2, _, ⟨_, hr⟩ | ⟨_, hr⟩⟩⟩
  · rw [hr] at h
    rcases h with h | ⟨e, h⟩
    · simp only [outcome.returned.injEq] at h
      rw [← h.1]
      exact ⟨rfl, rfl, rfl⟩
    · exact outcome.noConfusion h
  · rw [hr] at h
    rcases h with h | ⟨e, h⟩ <;> exact outcome.noConfusion h
  · rw [hr] at h
    rcases h with h | ⟨e, h⟩
    · exact outcome.noConfusion h
    · simp only [outcome.thrown.injEq] at h
      rw [← h.2.1]
      exact ⟨rfl, rfl, rfl⟩
  · rw [hr] at h
    rcases h with h | ⟨e, h⟩
    · simp only [outcome.returned.injEq] at h
      rw [← h.1]
      exact ⟨rfl, rfl, rfl⟩
    · exact outcome.noConfusion h

/-! ## Claims -/

/-- C1 (basic row mapping): when `operator>>` reads a line whose tokenization
has as many tokens as the header has names, and the names are pairwise distinct,
a call with an empty row returns without throwing, and the row then has exactly
as many entries as the header, the name `header[i]` mapping to token `i`. -/
theorem basic_row_mapping (s : csvstream) (is1 : istream) (line : string)
    (hread : getline s.is '\n' = (is1, line)) (hok : is1.to_bool = true)
    (hnd : s.header.Nodup)
    (hlen : (tokenize line s.delimiter).length = s.header.length) :
    ∃ row, s.operator_rshift [] =
        outcome.returned { s with is := is1, line_no := s.line_no + 1 } row ∧
      row.size = s.header.length ∧
      (∀ (i : Nat) (name : string), s.header[i]? = some name → ∃ t : string, (tokenize line s.delimiter)[i]? = some t ∧
        row.find name = some t) ∧
      (∀ k, k ∉ s.header → row.find k = none) := by
  obtain ⟨row, hrow⟩ := assign_tokens_in_range s.header 0 [] (tokenize line s.delimiter)
    (by omega)
  have hsize : row.size = s.header.length := by
    have := assign_tokens_size s.header hnd 0 [] row _ hrow (fun _ _ _ _ => rfl)
    simp only [row_type.size, List.length_nil, Nat.zero_add] at this
    simp only [row_type.size]
    omega
  refine ⟨row, ?_, hsize, ?_, ?_⟩
  · rw [operator_rshift_read s [] is1 line hread hok, hrow]
    simp [hsize]
  · intro i name hi
    have hil : i < s.header.length := by
      by_contra hc
      have : s.header[i]? = none := List.getElem?_eq_none (by omega)
      rw [this] at hi
      exact Option.noConfusion hi
    have hit : i < (tokenize line s.delimiter).length := by omega
    refine ⟨(tokenize line s.delimiter)[i], List.getElem?_eq_getElem hit, ?_⟩
    have := assign_tokens_find s.header hnd 0 [] row _ hrow i name (by simpa using hi) hit
    rw [this, List.getElem?_eq_getElem hit]
  · intro k hk
    have := assign_tokens_find_other s.header 0 [] row _ hrow k (by
      intro j _ hj
      exact hk (List.getElem?_mem hj))
    rw [this]
    rfl

/-- C1 at the header `[a, b, c]` and the line `"1,2,3"`: the row is
`a -> 1, b -> 2, c -> 3`. -/
theorem basic_row_mapping_witness :
    csvstream.from_stream (input_stream "a,b,c\n1,2,3\n") ',' = .ok abc_stream ∧
    abc_stream.operator_rshift [] =
      outcome.returned { abc_stream with is := stringstream [], line_no := 1 }
        [("a".toList, "1".toList), ("b".toList, "2".toList), ("c".toList, "3".toList)] ∧
    ∃ row, abc_stream.operator_rshift [] =
        outcome.returned { abc_stream with is := stringstream [], line_no := 0 + 1 } row ∧
      row.size = abc_stream.header.length ∧
      (∀ (i : Nat) (name : string), abc_stream.header[i]? = some name →
        ∃ t : string, (tokenize "1,2,3".toList abc_stream.delimiter)[i]? = some t ∧
          row.find name = some t) ∧
      (∀ k, k ∉ abc_stream.header → row.find k = none) :=
  ⟨by decide, by decide,
    basic_row_mapping abc_stream (stringstream []) "1,2,3".toList (by decide) (by decide)
      (by decide) (by decide)⟩

/-- C3 (too-short rows are rejected): when `operator>>` reads a line whose
tokenization has fewer tokens than the header has names, a call with an empty
row throws the exception "Number of items in row does not match header.", for
every header, with or without duplicates. -/
theorem too_short_row_rejected (s : csvstream) (is1 : istream) (line : string)
    (hread : getline s.is '\n' = (is1, line)) (hok : is1.to_bool = true)
    (hshort : (tokenize line s.delimiter).length < s.header.length) :
    ∃ row, s.operator_rshift [] =
      outcome.thrown ⟨arity_msg { s with is := is1, line_no := s.line_no + 1 }⟩
        { s with is := is1, line_no := s.line_no + 1 } row := by
  obtain ⟨row, hrow⟩ := assign_tokens_in_range s.header 0 [] (tokenize line s.delimiter)
    (by omega)
  have hle := assign_tokens_size_le s.header 0 [] row _ hrow
  simp only [row_type.size, List.length_nil, Nat.zero_add] at hle
  have hne : row.size ≠ s.header.length := by
    simp only [row_type.size]
    omega
  refine ⟨row, ?_⟩
  rw [operator_rshift_read s [] is1 line hread hok, hrow]
  simp [hne]

/-- C3 at the header `[a]` and an empty data line: the line has no token and the
call throws. -/
theorem too_short_row_rejected_witness :
    csvstream.from_stream (input_stream "a\n\n") ',' = .ok a_empty_line_stream ∧
    tokenize [] ',' = [] ∧
    ∃ row, a_empty_line_stream.operator_rshift [] =
      outcome.thrown
        ⟨arity_msg { a_empty_line_stream with is := stringstream [], line_no := 0 + 1 }⟩
        { a_empty_line_stream with is := stringstream [], line_no := 0 + 1 } row :=
  ⟨by decide, by decide,
    too_short_row_rejected a_empty_line_stream (stringstream []) [] (by decide) (by decide)
      (by decide)⟩

/-- C10 (row-arity invariant): whenever `operator>>` reads a line and returns,
whatever the row passed in, the row it leaves has exactly as many entries as the
header has names. -/
theorem row_arity_invariant (s s1 : csvstream) (row row1 : row_type)
    (hread : (getline s.is '\n').1.to_bool = true)
    (hret : s.operator_rshift row = outcome.returned s1 row1) :
    row1.size = s.getheader.length ∧ row1.size = s1.getheader.length := by
  rw [operator_rshift_read s row (getline s.is '\n').1 (getline s.is '\n').2 rfl hread] at hret
  cases hrow : assign_tokens s.header 0 row (tokenize (getline s.is '\n').2 s.delimiter) with
  | none => simp [hrow] at hret
  | some row2 =>
    simp only [hrow] at hret
    by_cases hsz : row2.size = s.header.length
    · simp only [hsz, ne_eq, not_true_eq_false, if_false, outcome.returned.injEq] at hret
      obtain ⟨hs, hr⟩ := hret
      subst hs hr
      exact ⟨hsz, hsz⟩
    · simp [hsz] at hret

/-- C10 at the header `[a, b, c]` and the line `"1,2,3"`, with a row that
already holds an entry. -/
theorem row_arity_invariant_witness :
    (getline abc_stream.is '\n').1.to_bool = true ∧
    abc_stream.operator_rshift [("a".toList, "0".toList)] =
      outcome.returned { abc_stream with is := stringstream [], line_no := 1 }
        [("a".toList, "1".toList), ("b".toList, "2".toList), ("c".toList, "3".toList)] ∧
    row_type.size
        [("a".toList, "1".toList), ("b".toList, "2".toList), ("c".toList, "3".toList)]
      = abc_stream.getheader.length :=
  ⟨by decide, by decide,
    (row_arity_invariant abc_stream { abc_stream with is := stringstream [], line_no := 1 }
      [("a".toList, "0".toList)]
      [("a".toList, "1".toList), ("b".toList, "2".toList), ("c".toList, "3".toList)]
      (by decide) (by decide)).1⟩

/-- C2 (header capture): for every non-empty input and every delimiter, the
constructor succeeds, `getheader()` is the tokenization of the characters before
the first newline, and the stream is left at the character after that newline. -/
theorem header_capture (input : string) (d : Char) (h : input ≠ []) :
    ∃ s, csvstream.from_stream (stringstream input) d = .ok s ∧
      s.getheader = tokenize (input.takeWhile (fun c => c != '\n')) d ∧
      s.is.buf = (input.dropWhile (fun c => c != '\n')).drop 1 ∧
      s.delimiter = d ∧ s.line_no = 0 := by
  have hg := getline_good (stringstream input) '\n' rfl h
  refine ⟨_, from_stream_ok (stringstream input) d hg.1, ?_, ?_, rfl, rfl⟩
  · simp only [csvstream.getheader, hg.2.1]
    rfl
  · simp only [hg.2.2]
    rfl

/-- C2 at the input `"a,b,c\n1,2,3\n"`: the header is `[a, b, c]` and the stream
is left before `"1,2,3\n"`. -/
theorem header_capture_witness :
    "a,b,c\n1,2,3\n".toList ≠ [] ∧
    tokenize ("a,b,c\n1,2,3\n".toList.takeWhile (fun c => c != '\n')) ',' =
      ["a".toList, "b".toList, "c".toList] ∧
    ("a,b,c\n1,2,3\n".toList.dropWhile (fun c => c != '\n')).drop 1 = "1,2,3\n".toList ∧
    ∃ s, csvstream.from_stream (stringstream "a,b,c\n1,2,3\n".toList) ',' = .ok s ∧
      s.getheader = tokenize ("a,b,c\n1,2,3\n".toList.takeWhile (fun c => c != '\n')) ',' ∧
      s.is.buf = ("a,b,c\n1,2,3\n".toList.dropWhile (fun c => c != '\n')).drop 1 ∧
      s.delimiter = ',' ∧ s.line_no = 0 :=
  ⟨by decide, by decide, by decide, header_capture "a,b,c\n1,2,3\n".toList ',' (by decide)⟩

/-- C7 (end of stream): when the stream has no unread character, or is not
`good()`, `operator>>` returns without throwing, leaves the row and `line_no`
unchanged, and the object then converts to `false`; from the state it leaves,
any number of further calls, on any row, do the same and change nothing. -/
theorem end_of_stream_idempotent (s : csvstream) (row : row_type)
    (h : s.is.buf = [] ∨ s.is.good = false) :
    ∃ s1, s.operator_rshift row = outcome.returned s1 row ∧
      s1.line_no = s.line_no ∧ s1.header = s.header ∧ s1.to_bool = false ∧
      (∀ row2 : row_type, s1.operator_rshift row2 = outcome.returned s1 row2) ∧
      (∀ (n : Nat) (row2 : row_type), advance_n n s1 row2 = outcome.returned s1 row2) := by
  have hfail : (getline s.is '\n').1.to_bool = false :=
    (getline_fails_iff s.is '\n').mpr (Or.symm h)
  have hfix := getline_failed_fix s.is '\n' hfail
  have hstep : ∀ row2 : row_type,
      csvstream.operator_rshift { s with is := (getline s.is '\n').1 } row2 =
        outcome.returned { s with is := (getline s.is '\n').1 } row2 := by
    intro row2
    rw [operator_rshift_end _ row2 (by simp only [hfix]; exact hfail)]
    simp only [hfix]
  refine ⟨{ s with is := (getline s.is '\n').1 }, operator_rshift_end s row hfail, rfl, rfl,
    hfail, hstep, ?_⟩
  intro n
  induction n with
  | zero => intro row2; rfl
  | succ n ih =>
    intro row2
    simp only [advance_n, hstep row2]
    exact ih row2

/-- C7 at an object whose stream has been read to its end. -/
theorem end_of_stream_idempotent_witness :
    (ab_end_stream.is.buf = [] ∨ ab_end_stream.is.good = false) ∧
    ∃ s1, ab_end_stream.operator_rshift [("a".toList, "1".toList), ("b".toList, "2".toList)] =
        outcome.returned s1 [("a".toList, "1".toList), ("b".toList, "2".toList)] ∧
      s1.line_no = ab_end_stream.line_no ∧ s1.header = ab_end_stream.header ∧
      s1.to_bool = false ∧
      (∀ row2 : row_type, s1.operator_rshift row2 = outcome.returned s1 row2) ∧
      (∀ (n : Nat) (row2 : row_type), advance_n n s1 row2 = outcome.returned s1 row2) :=
  ⟨by decide,
    end_of_stream_idempotent ab_end_stream
      [("a".toList, "1".toList), ("b".toList, "2".toList)] (by decide)⟩

/-- C8 (missing header fails construction): the constructor throws "error
reading header" exactly when the stream is not `good()` or has no unread
character; on a fresh stream over `input` it throws exactly when `input` is
empty and succeeds exactly when it is not, and for the input `"\n"` it succeeds
with an empty header. -/
theorem missing_header_fails (is : istream) (input : string) (d : Char) :
    (csvstream.from_stream is d = .error ⟨"error reading header".toList⟩ ↔
      (is.good = false ∨ is.buf = [])) ∧
    (csvstream.from_stream (stringstream input) d = .error ⟨"error reading header".toList⟩ ↔
      input = []) ∧
    ((∃ s, csvstream.from_stream (stringstream input) d = .ok s) ↔ input ≠ []) ∧
    csvstream.from_stream (stringstream "\n".toList) d =
      .ok { is := stringstream [], filename := [], delimiter := d, line_no := 0,
            header := [] } := by
  have key : ∀ is1 : istream,
      (csvstream.from_stream is1 d = .error ⟨"error reading header".toList⟩ ↔
        (is1.good = false ∨ is1.buf = [])) := by
    intro is1
    constructor
    · intro he
      by_cases hb : (getline is1 '\n').1.to_bool = true
      · rw [from_stream_ok is1 d hb] at he
        exact Except.noConfusion he
      · exact (getline_fails_iff is1 '\n').mp (by simpa using hb)
    · intro hc
      exact from_stream_error is1 d ((getline_fails_iff is1 '\n').mpr hc)
  have hfresh : (csvstream.from_stream (stringstream input) d =
      .error ⟨"error reading header".toList⟩ ↔ input = []) := by
    rw [key (stringstream input)]
    simp [stringstream, istream.good]
  refine ⟨key is, hfresh, ?_, ?_⟩
  · constructor
    · rintro ⟨s, hs⟩ hnil
      rw [hfresh.mpr hnil] at hs
      exact Except.noConfusion hs
    · intro hne
      exact ⟨_, from_stream_ok (stringstream input) d
        (getline_good (stringstream input) '\n' rfl hne).1⟩
  · rw [from_stream_ok _ d (by decide)]
    have h1 : getline (stringstream "\n".toList) '\n' = (stringstream [], []) := by decide
    rw [h1]
    rfl

/-- C4 (too-long rows): for the input `"a,b\n1,2,3\n"` the data line has three
tokens and the header two names; the first `operator>>` evaluates `header[2]`,
which is out of range, and so never reaches the size check that throws. -/
theorem too_long_row_indexes_out_of_range :
    (tokenize "1,2,3".toList ',').length = 3 ∧
    (csvstream.from_stream (input_stream "a,b\n1,2,3\n") ',').map
        (fun s => (s.getheader.length, s.operator_rshift [])) =
      .ok (2, outcome.out_of_range) := by
  decide

/-- C5 (reused row): for the input `"a,b\n1,2\n3\n"` and one row variable, the
first `operator>>` fills the row with `a -> 1, b -> 2`; the second reads the
line `"3"`, which has one token for two names, and returns without throwing,
leaving `a -> 3, b -> 2` in the row. -/
theorem reused_row_short_line_not_rejected :
    (tokenize "3".toList ',').length = 1 ∧
    (csvstream.from_stream (input_stream "a,b\n1,2\n3\n") ',').map
        (fun s => (advance_n 1 s [], advance_n 2 s [])) =
      .ok (outcome.returned
            { is := stringstream "3\n".toList, filename := [], delimiter := ',', line_no := 1,
              header := ["a".toList, "b".toList] }
            [("a".toList, "1".toList), ("b".toList, "2".toList)],
          outcome.returned
            { is := stringstream [], filename := [], delimiter := ',', line_no := 2,
              header := ["a".toList, "b".toList] }
            [("a".toList, "3".toList), ("b".toList, "2".toList)]) := by
  decide

/-- C6 (rows produced fresh): for the input `"a,b\n1\n"`, the first `operator>>`
throws when it is passed an empty row, and returns the row `b -> 9, a -> 1` when
it is passed the row `b -> 9`: the outcome depends on the row passed in. -/
theorem outcome_depends_on_row_passed_in :
    (csvstream.from_stream (input_stream "a,b\n1\n") ',').map
        (fun s => (s.operator_rshift [], s.operator_rshift [("b".toList, "9".toList)])) =
      .ok (outcome.thrown
            ⟨"Number of items in row does not match header. :L1".toList⟩
            { ab_short_stream with is := stringstream [], line_no := 1 }
            [("a".toList, "1".toList)],
          outcome.returned
            { ab_short_stream with is := stringstream [], line_no := 1 }
            [("b".toList, "9".toList), ("a".toList, "1".toList)]) := by
  decide

/-- C9 (line number of the arity error): for the input `"a,b\n1\n"` the
offending line is the second line of the input, and the exception thrown by the
first `operator>>` carries `line_no = 1`: its message ends in `:L1`. -/
theorem arity_error_line_number_first_data_line :
    (csvstream.from_stream (input_stream "a,b\n1\n") ',').map
        (fun s => (s.line_no, s.operator_rshift [])) =
      .ok (0, outcome.thrown
            ⟨"Number of items in row does not match header. :L1".toList⟩
            { is := stringstream [], filename := [], delimiter := ',', line_no := 1,
              header := ["a".toList, "b".toList] }
            [("a".toList, "1".toList)]) := by
  decide

/-- C11, as stated, fails at the header `[a, a]` and the line `"1,2"`: the
call with an empty row leaves `a -> 2` in the row, which has one entry for two
columns, and throws. -/
theorem duplicate_names_row_rejected :
    (csvstream.from_stream (input_stream "a,a\n1,2\n") ',').map
        (fun s => (s.getheader, s.operator_rshift [])) =
      .ok (["a".toList, "a".toList],
        outcome.thrown ⟨"Number of items in row does not match header. :L1".toList⟩
          { is := stringstream [], filename := [], delimiter := ',', line_no := 1,
            header := ["a".toList, "a".toList] }
          [("a".toList, "2".toList)]) := by
  decide

/-- C11, amended (duplicate header names): when the header holds some name more
than once and `operator>>` reads a line with as many tokens as the header has
columns, a call with an empty row throws the arity exception; the row it has
written has fewer entries than the header has columns, and each name maps to
the token at the position of its last occurrence in the header. -/
theorem duplicate_names_overwrite_then_throw (s : csvstream) (is1 : istream) (line : string)
    (hread : getline s.is '\n' = (is1, line)) (hok : is1.to_bool = true)
    (hdup : ¬ s.header.Nodup)
    (hlen : (tokenize line s.delimiter).length = s.header.length) :
    ∃ row, s.operator_rshift [] =
        outcome.thrown ⟨arity_msg { s with is := is1, line_no := s.line_no + 1 }⟩
          { s with is := is1, line_no := s.line_no + 1 } row ∧
      row.size < s.header.length ∧
      ∀ (i : Nat) (name t : string), s.header[i]? = some name →
        (∀ m, i < m → s.header[m]? ≠ some name) →
        (tokenize line s.delimiter)[i]? = some t → row.find name = some t := by
  obtain ⟨row, hrow⟩ := assign_tokens_in_range s.header 0 [] (tokenize line s.delimiter)
    (by omega)
  obtain ⟨j1, j2, k, h12, h2, hk1, hk2⟩ := exists_dup_indices s.header hdup
  have hlt := assign_tokens_size_lt_of_dup s.header 0 [] row _ hrow j1 j2 k (Nat.zero_le _) h12
    (by omega) hk1 hk2
  simp only [row_type.size, List.length_nil, Nat.zero_add] at hlt
  have hsz : row.size < s.header.length := by
    simp only [row_type.size]
    omega
  refine ⟨row, ?_, hsz, ?_⟩
  · rw [operator_rshift_read s [] is1 line hread hok, hrow]
    have hne : row.size ≠ s.header.length := by omega
    simp [hne]
  · intro i name t hi hlast ht
    have hit : i < (tokenize line s.delimiter).length := by
      by_contra hc
      have : (tokenize line s.delimiter)[i]? = none := List.getElem?_eq_none (by omega)
      rw [this] at ht
      exact Option.noConfusion ht
    have := assign_tokens_find_last s.header 0 [] row _ hrow i name (by simpa using hi) hit
      (fun m hm _ => hlast m (by omega))
    rw [this, ht]

/-- C11 amended, at the header `[a, a]` and the line `"1,2"`. -/
theorem duplicate_names_overwrite_then_throw_witness :
    ¬ aa_stream.header.Nodup ∧
    ∃ row, aa_stream.operator_rshift [] =
        outcome.thrown ⟨arity_msg { aa_stream with is := stringstream [], line_no := 0 + 1 }⟩
          { aa_stream with is := stringstream [], line_no := 0 + 1 } row ∧
      row.size < aa_stream.header.length ∧
      ∀ (i : Nat) (name t : string), aa_stream.header[i]? = some name →
        (∀ m, i < m → aa_stream.header[m]? ≠ some name) →
        (tokenize "1,2".toList aa_stream.delimiter)[i]? = some t → row.find name = some t :=
  ⟨by decide,
    duplicate_names_overwrite_then_throw aa_stream (stringstream []) "1,2".toList (by decide)
      (by decide) (by decide) (by decide)⟩

/-- C14 (empty-line tokenization): for every delimiter the empty line has no
token; the loop of `read_header` adds nothing to the header and the loop of
`operator>>` assigns nothing to the row. -/
theorem empty_line_has_no_token (d : Char) (header : header_type) (row : row_type) (i : Nat) :
    tokenize [] d = [] ∧
    header_loop d (([] : string).length + 1) (stringstream []) header = header ∧
    row_loop header d (([] : string).length + 1) (stringstream []) i row = some row := by
  have h : tokens_from d (([] : string).length + 1) (stringstream []) = [] := tokenize_nil d
  refine ⟨tokenize_nil d, ?_, ?_⟩
  · rw [header_loop_eq, h, List.append_nil]
  · rw [row_loop_eq, h]
    rfl

/-- C15 (the tokenizer splits on the delimiter, no quoting): no token contains
the delimiter; joining the tokens with the delimiter gives the line back,
without its final character when the line ends with the delimiter; two adjacent
delimiters give an empty token between the tokens before and after them; a
delimiter between double quotes separates like any other. -/
theorem tokenizer_splits_on_delimiter (d : Char) (line pre rest : string) :
    (∀ t ∈ tokenize line d, d ∉ t) ∧
    join d (tokenize line d) = (if line.getLast? = some d then line.dropLast else line) ∧
    tokenize (pre ++ d :: d :: rest) d = tokenize (pre ++ [d]) d ++ [] :: tokenize rest d ∧
    tokenize "a,,b".toList ',' = ["a".toList, [], "b".toList] ∧
    tokenize ['"', 'a', ',', 'b', '"', ',', 'c'] ',' = [['"', 'a'], ['b', '"'], ['c']] := by
  refine ⟨tokenize_mem_no_delim d line, join_tokenize d line, ?_, by decide, by decide⟩
  rw [tokenize_append d pre (d :: rest), tokenize_cons_delim]

/-- C18 (token count and trailing delimiter): the number of tokens of a line is
the number of delimiters in it, plus one when the line is not empty and does not
end with the delimiter; `"a,b,"` gives `[a, b]` and `","` gives one empty token;
under the header `[a, b]` the line `"1,2,"` is accepted and the line `"1,"` is
rejected with the arity exception. -/
theorem token_count_and_trailing_delimiter (d : Char) (line : string) :
    (tokenize line d).length =
      line.count d + (if line ≠ [] ∧ line.getLast? ≠ some d then 1 else 0) ∧
    tokenize "a,b,".toList ',' = ["a".toList, "b".toList] ∧
    tokenize ",".toList ',' = [[]] ∧
    (csvstream.from_stream (input_stream "a,b\n1,2,\n") ',').map
        (fun s => s.operator_rshift []) =
      .ok (outcome.returned
        { is := stringstream [], filename := [], delimiter := ',', line_no := 1,
          header := ["a".toList, "b".toList] }
        [("a".toList, "1".toList), ("b".toList, "2".toList)]) ∧
    (csvstream.from_stream (input_stream "a,b\n1,\n") ',').map
        (fun s => s.operator_rshift []) =
      .ok (outcome.thrown ⟨"Number of items in row does not match header. :L1".toList⟩
        { is := stringstream [], filename := [], delimiter := ',', line_no := 1,
          header := ["a".toList, "b".toList] }
        [("a".toList, "1".toList)]) :=
  ⟨tokenize_length d line, by decide, by decide, by decide, by decide⟩

/-- C13 (stream-health accessor): the conversion to `bool` is `true` right
after a successful construction; after a call of `operator>>` that returns, it
is `true` exactly when the call read a line, so it is `false` after a call that
met the end of the stream. -/
theorem stream_health :
    (∀ (is : istream) (d : Char) (s : csvstream),
      csvstream.from_stream is d = .ok s → s.to_bool = true) ∧
    (∀ (s s1 : csvstream) (row row1 : row_type),
      s.operator_rshift row = outcome.returned s1 row1 →
        (s1.to_bool = true ↔ (getline s.is '\n').1.to_bool = true)) := by
  constructor
  · intro is d s h
    by_cases hok : (getline is '\n').1.to_bool = true
    · rw [from_stream_ok is d hok] at h
      simp only [Except.ok.injEq] at h
      rw [← h]
      exact hok
    · rw [from_stream_error is d (by simpa using hok)] at h
      exact Except.noConfusion h
  · intro s s1 row row1 h
    rcases operator_rshift_cases s row (getline s.is '\n').1 (getline s.is '\n').2 rfl with
      ⟨hf, hr⟩ | ⟨hok, hr | ⟨row2, _, ⟨_, hr⟩ | ⟨_, hr⟩⟩⟩
    · rw [hr] at h
      simp only [outcome.returned.injEq] at h
      rw [← h.1]
      simp only [csvstream.to_bool]
    · rw [hr] at h
      exact outcome.noConfusion h
    · rw [hr] at h
      exact outcome.noConfusion h
    · rw [hr] at h
      simp only [outcome.returned.injEq] at h
      rw [← h.1]
      simp only [csvstream.to_bool]

/-- C13 at the input `"a,b,c\n1,2,3\n"`: `true` after the construction, `true`
after the first `operator>>`, `false` after the second. -/
theorem stream_health_witness :
    abc_stream.to_bool = true ∧
    (csvstream.to_bool { abc_stream with is := stringstream [], line_no := 1 } = true ↔
      (getline abc_stream.is '\n').1.to_bool = true) ∧
    (advance_n 2 abc_stream []) =
      outcome.returned
        { abc_stream with
          is := { buf := [], eofbit := true, failbit := true, badbit := false }, line_no := 1 }
        [("a".toList, "1".toList), ("b".toList, "2".toList), ("c".toList, "3".toList)] ∧
    csvstream.to_bool
        { abc_stream with
          is := { buf := [], eofbit := true, failbit := true, badbit := false }, line_no := 1 }
      = false :=
  ⟨stream_health.1 (input_stream "a,b,c\n1,2,3\n") ',' abc_stream (by decide),
    stream_health.2 abc_stream { abc_stream with is := stringstream [], line_no := 1 } []
      [("a".toList, "1".toList), ("b".toList, "2".toList), ("c".toList, "3".toList)]
      (by decide),
    by decide, by decide⟩

/-- C16 (the header is immutable): whatever rows `operator>>` is called with,
and whether the calls return rows, meet the end of the stream or throw, the
object has the same header and delimiter after them as before, so `getheader()`
returns the same sequence; this holds for a single call as well. -/
theorem header_immutable (s s1 : csvstream) (rows : List row_type)
    (h : advances s rows = some s1) :
    s1.getheader = s.getheader ∧ s1.delimiter = s.delimiter ∧
    (∀ (row row2 : row_type) (s2 : csvstream),
      (s.operator_rshift row = outcome.returned s2 row2 ∨
        ∃ e, s.operator_rshift row = outcome.thrown e s2 row2) →
      s2.getheader = s.getheader ∧ s2.delimiter = s.delimiter) := by
  have hall : s1.getheader = s.getheader ∧ s1.delimiter = s.delimiter := by
    induction rows generalizing s with
    | nil =>
      simp only [advances, Option.some.injEq] at h
      rw [h]
      exact ⟨rfl, rfl⟩
    | cons row rows ih =>
      simp only [advances] at h
      cases hop : s.operator_rshift row with
      | returned s2 row2 =>
        rw [hop] at h
        have hf := operator_rshift_frame s s2 row row2 (Or.inl hop)
        have := ih s2 h
        simp only [csvstream.getheader] at this ⊢
        exact ⟨this.1.trans hf.1, this.2.trans hf.2.1⟩
      | thrown e s2 row2 =>
        rw [hop] at h
        have hf := operator_rshift_frame s s2 row row2 (Or.inr ⟨e, hop⟩)
        have := ih s2 h
        simp only [csvstream.getheader] at this ⊢
        exact ⟨this.1.trans hf.1, this.2.trans hf.2.1⟩
      | out_of_range =>
        rw [hop] at h
        exact Option.noConfusion h
  refine ⟨hall.1, hall.2, ?_⟩
  intro row row2 s2 hop
  have hf := operator_rshift_frame s s2 row row2 hop
  exact ⟨hf.1, hf.2.1⟩

/-- C16 at the input `"a,b\n1\n2,3\n"`: a call that throws, a call that returns
a row and a call that meets the end of the stream leave the header `[a, b]`. -/
theorem header_immutable_witness :
    advances ab_short_then_full_stream [[], [], []] =
      some { ab_short_then_full_stream with
        is := { buf := [], eofbit := true, failbit := true, badbit := false }, line_no := 2 } ∧
    csvstream.getheader { ab_short_then_full_stream with
        is := { buf := [], eofbit := true, failbit := true, badbit := false }, line_no := 2 }
      = ab_short_then_full_stream.getheader :=
  ⟨by decide,
    (header_immutable ab_short_then_full_stream
      { ab_short_then_full_stream with
        is := { buf := [], eofbit := true, failbit := true, badbit := false }, line_no := 2 }
      [[], [], []] (by decide)).1⟩

/-- C12, as stated, fails when the delimiter is the newline character: for the
names `[a, b]` and the values `[1, 2]` the input is `"a\nb\n1\n2\n"`, and the
header is `[a]`, not `[a, b]`. -/
theorem custom_delimiter_newline :
    (csvstream.from_stream
        (stringstream (join '\n' ["a".toList, "b".toList] ++
          '\n' :: (join '\n' ["1".toList, "2".toList] ++ ['\n']))) '\n').map
        csvstream.getheader = .ok ["a".toList] ∧
    ¬ ((csvstream.from_stream
        (stringstream (join '\n' ["a".toList, "b".toList] ++
          '\n' :: (join '\n' ["1".toList, "2".toList] ++ ['\n']))) '\n').map
        csvstream.getheader = .ok ["a".toList, "b".toList]) := by
  decide

/-- C12, amended (custom delimiter): for every delimiter `d` other than the
newline character and two lists `hs` (pairwise distinct) and `vs` of the same
length, empty or not, of non-empty strings without `d` and without newline, the
constructor with `d` on the input `join(hs,d) + "\n" + join(vs,d) + "\n"` gives
the header `hs`, and the first `operator>>` with an empty row returns exactly
the row `hs[i] -> vs[i]`. -/
theorem custom_delimiter (d : Char) (hs vs : List string) (hd : d ≠ '\n')
    (hlen : hs.length = vs.length) (hnd : hs.Nodup)
    (hhs : ∀ t ∈ hs, t ≠ [] ∧ d ∉ t ∧ '\n' ∉ t)
    (hvs : ∀ t ∈ vs, t ≠ [] ∧ d ∉ t ∧ '\n' ∉ t) :
    ∃ s, csvstream.from_stream
          (stringstream (join d hs ++ '\n' :: (join d vs ++ ['\n']))) d = .ok s ∧
      s.getheader = hs ∧ s.delimiter = d ∧
      ∃ s1 row, s.operator_rshift [] = outcome.returned s1 row ∧ row_is hs vs row := by
  have hnl1 : '\n' ∉ join d hs :=
    not_mem_join d '\n' hs (Ne.symm hd) (fun t ht => (hhs t ht).2.2)
  have hnl2 : '\n' ∉ join d vs :=
    not_mem_join d '\n' vs (Ne.symm hd) (fun t ht => (hvs t ht).2.2)
  have htok1 : tokenize (join d hs) d = hs :=
    tokenize_join d hs (fun t ht => ⟨(hhs t ht).1, (hhs t ht).2.1⟩)
  have htok2 : tokenize (join d vs) d = vs :=
    tokenize_join d vs (fun t ht => ⟨(hvs t ht).1, (hvs t ht).2.1⟩)
  have hg1 := getline_line (stringstream (join d hs ++ '\n' :: (join d vs ++ ['\n']))) '\n'
    (join d hs) (join d vs ++ ['\n']) rfl rfl hnl1
  have hctor : csvstream.from_stream
      (stringstream (join d hs ++ '\n' :: (join d vs ++ ['\n']))) d =
      .ok { is := stringstream (join d vs ++ ['\n']), filename := [], delimiter := d,
            line_no := 0, header := hs } := by
    rw [from_stream_ok _ d (by rw [hg1]; rfl)]
    simp only [hg1, htok1]
    rfl
  have hg2 := getline_line (stringstream (join d vs ++ ['\n'])) '\n' (join d vs) [] rfl rfl
    hnl2
  obtain ⟨row, hop, hrow⟩ := read_full_line
    { is := stringstream (join d vs ++ ['\n']), filename := [], delimiter := d,
      line_no := 0, header := hs } [] _ (join d vs) hg2 rfl hnd
    (by simp only [htok2]; omega) (Or.inl rfl)
  refine ⟨_, hctor, rfl, rfl, _, row, hop, ?_⟩
  simp only [htok2] at hrow
  exact hrow

/-- C12 amended, at the delimiter `';'`, the names `[a, b]` and the values
`[1,5 and 2]`: the comma in the first value does not separate. -/
theorem custom_delimiter_witness :
    csvstream.from_stream (input_stream "a;b\n1,5;2\n") ';' =
      .ok { is := stringstream "1,5;2\n".toList, filename := [], delimiter := ';',
            line_no := 0, header := ["a".toList, "b".toList] } ∧
    csvstream.operator_rshift
        { is := stringstream "1,5;2\n".toList, filename := [], delimiter := ';',
          line_no := 0, header := ["a".toList, "b".toList] } [] =
      outcome.returned
        { is := stringstream [], filename := [], delimiter := ';',
          line_no := 1, header := ["a".toList, "b".toList] }
        [("a".toList, "1,5".toList), ("b".toList, "2".toList)] ∧
    ∃ s, csvstream.from_stream
          (stringstream (join ';' ["a".toList, "b".toList] ++
            '\n' :: (join ';' ["1,5".toList, "2".toList] ++ ['\n']))) ';' = .ok s ∧
      s.getheader = ["a".toList, "b".toList] ∧ s.delimiter = ';' ∧
      ∃ s1 row, s.operator_rshift [] = outcome.returned s1 row ∧
        row_is ["a".toList, "b".toList] ["1,5".toList, "2".toList] row :=
  ⟨by decide, by decide,
    custom_delimiter ';' ["a".toList, "b".toList] ["1,5".toList, "2".toList] (by decide)
      (by decide) (by decide) (by decide) (by decide)⟩

/-- C17 (the loop over a whole file, one row variable): the input is a header
line whose tokens are `n >= 1` pairwise-distinct names, followed by data lines
with `n` tokens each, every line without newline inside, the last one followed
by a newline or not.  The constructor succeeds; starting from an empty row, call
`j + 1` of `operator>>` returns with the row exactly `header[i] -> token i` of
data line `j` and `line_no = j + 1`; the call after the last line returns with
the row as the last data line left it and the object converting to `false`. -/
theorem whole_file_loop (d : Char) (hline : string) (lines : List string) (fn : Bool)
    (hn : 1 ≤ (tokenize hline d).length) (hnd : (tokenize hline d).Nodup)
    (hnl : ∀ l ∈ hline :: lines, '\n' ∉ l)
    (htok : ∀ l ∈ lines, (tokenize l d).length = (tokenize hline d).length) :
    ∃ s, csvstream.from_stream (stringstream (text fn (hline :: lines))) d = .ok s ∧
      s.getheader = tokenize hline d ∧
      (∀ (j : Nat) (l : string), lines[j]? = some l →
        ∃ sj rowj, advance_n (j + 1) s [] = outcome.returned sj rowj ∧
          sj.line_no = j + 1 ∧ row_is s.getheader (tokenize l d) rowj) ∧
      (∃ sm rowm se, advance_n lines.length s [] = outcome.returned sm rowm ∧
        advance_n (lines.length + 1) s [] = outcome.returned se rowm ∧
        se.line_no = lines.length ∧ se.to_bool = false) := by
  have hne : ∀ l ∈ hline :: lines, l ≠ [] ∧ '\n' ∉ l := by
    intro l hl
    refine ⟨?_, hnl l hl⟩
    intro e
    subst e
    rcases List.mem_cons.mp hl with h | h
    · rw [← h, tokenize_nil] at hn
      simp at hn
    · have := htok [] h
      rw [tokenize_nil] at this
      simp only [List.length_nil] at this
      omega
  obtain ⟨hok, hl, hrest⟩ := delivers_text fn (hline :: lines) hne
  have hctor := from_stream_ok (stringstream (text fn (hline :: lines))) d hok
  rw [hl] at hctor
  obtain ⟨h1, h2⟩ := advance_lines lines
    { is := (getline (stringstream (text fn (hline :: lines))) '\n').1, filename := [],
      delimiter := d, line_no := 0, header := tokenize hline d } [] hnd htok hrest (Or.inl rfl)
  refine ⟨_, hctor, rfl, ?_, ?_⟩
  · intro j l hj
    obtain ⟨sj, rowj, e1, e2, e3⟩ := h1 j l hj
    exact ⟨sj, rowj, e1, by simpa using e2, e3⟩
  · obtain ⟨sm, rowm, se, e1, e2, e3, e4⟩ := h2
    exact ⟨sm, rowm, se, e1, e2, by simpa using e3, e4⟩

/-- C17 at the input `"a,b\n1,2\n3,4\n"`: two rows, then the end of the stream
with the row `a -> 3, b -> 4` left in place. -/
theorem whole_file_loop_witness :
    text true ["a,b".toList, "1,2".toList, "3,4".toList] = "a,b\n1,2\n3,4\n".toList ∧
    (csvstream.from_stream (input_stream "a,b\n1,2\n3,4\n") ',').map
        (fun s => (advance_n 1 s [], advance_n 2 s [], advance_n 3 s [])) =
      .ok (outcome.returned
            { is := stringstream "3,4\n".toList, filename := [], delimiter := ',',
              line_no := 1, header := ["a".toList, "b".toList] }
            [("a".toList, "1".toList), ("b".toList, "2".toList)],
          outcome.returned
            { is := stringstream [], filename := [], delimiter := ',',
              line_no := 2, header := ["a".toList, "b".toList] }
            [("a".toList, "3".toList), ("b".toList, "4".toList)],
          outcome.returned
            { is := { buf := [], eofbit := true, failbit := true, badbit := false },
              filename := [], delimiter := ',', line_no := 2,
              header := ["a".toList, "b".toList] }
            [("a".toList, "3".toList), ("b".toList, "4".toList)]) ∧
    ∃ s, csvstream.from_stream
          (stringstream (text true ("a,b".toList :: ["1,2".toList, "3,4".toList]))) ',' = .ok s ∧
      s.getheader = tokenize "a,b".toList ',' ∧
      (∀ (j : Nat) (l : string), ["1,2".toList, "3,4".toList][j]? = some l →
        ∃ sj rowj, advance_n (j + 1) s [] = outcome.returned sj rowj ∧
          sj.line_no = j + 1 ∧ row_is s.getheader (tokenize l ',') rowj) ∧
      (∃ sm rowm se,
        advance_n ["1,2".toList, "3,4".toList].length s [] = outcome.returned sm rowm ∧
        advance_n (["1,2".toList, "3,4".toList].length + 1) s [] = outcome.returned se rowm ∧
        se.line_no = ["1,2".toList, "3,4".toList].length ∧ se.to_bool = false) :=
  ⟨by decide, by decide,
    whole_file_loop ',' "a,b".toList ["1,2".toList, "3,4".toList] true (by decide) (by decide)
      (by decide) (by decide)⟩

/-- C19 (an arity exception is not atomic and does not poison the stream):
when `operator>>` reads a line and throws, as it does for a line with fewer
tokens than the header has columns, the object is left exactly as a successful
read of that line leaves it:
the stream is past the line, `line_no` is one more, the object still converts
to `true`.  The row is the row passed in with the tokens assigned: each token is
found under the name at its position (the last such position when the name
occurs again among those assigned).  A call that would return on the same line
leaves the same object state, so the next call reads the line that follows. -/
theorem arity_error_not_atomic (s s1 : csvstream) (row row1 : row_type) (is1 : istream)
    (line : string) (e : csvstream_exception)
    (hread : getline s.is '\n' = (is1, line)) (hok : is1.to_bool = true)
    (hthrow : s.operator_rshift row = outcome.thrown e s1 row1) :
    s1 = { s with is := is1, line_no := s.line_no + 1 } ∧ s1.to_bool = true ∧
    assign_tokens s.header 0 row (tokenize line s.delimiter) = some row1 ∧
    (∀ (j : Nat) (name t : string), s.header[j]? = some name →
      (tokenize line s.delimiter)[j]? = some t →
      (∀ m, j < m → m < (tokenize line s.delimiter).length → s.header[m]? ≠ some name) →
      row1.find name = some t) ∧
    (∀ (row0 row2 : row_type) (s2 : csvstream),
      s.operator_rshift row0 = outcome.returned s2 row2 → s2 = s1) := by
  have hs1 : s1 = { s with is := is1, line_no := s.line_no + 1 } ∧
      assign_tokens s.header 0 row (tokenize line s.delimiter) = some row1 := by
    rcases operator_rshift_cases s row is1 line hread with
      ⟨hf, _⟩ | ⟨_, hr | ⟨row2, hrow2, ⟨_, hr⟩ | ⟨_, hr⟩⟩⟩
    · rw [hok] at hf
      exact Bool.noConfusion hf
    · rw [hr] at hthrow
      exact outcome.noConfusion hthrow
    · rw [hr] at hthrow
      simp only [outcome.thrown.injEq] at hthrow
      exact ⟨hthrow.2.1.symm, by rw [← hthrow.2.2]; exact hrow2⟩
    · rw [hr] at hthrow
      exact outcome.noConfusion hthrow
  obtain ⟨hs1, hrow1⟩ := hs1
  refine ⟨hs1, by rw [hs1]; exact hok, hrow1, ?_, ?_⟩
  · intro j name t hj ht hlast
    have hjt : j < (tokenize line s.delimiter).length := by
      by_contra hc
      have : (tokenize line s.delimiter)[j]? = none := List.getElem?_eq_none (by omega)
      rw [this] at ht
      exact Option.noConfusion ht
    have := assign_tokens_find_last s.header 0 row row1 _ hrow1 j name (by simpa using hj) hjt
      (fun m hm hm2 => hlast m (by omega) (by omega))
    rw [this, ht]
  · intro row0 row2 s2 hret
    rcases operator_rshift_cases s row0 is1 line hread with
      ⟨hf, _⟩ | ⟨_, hr | ⟨row3, _, ⟨_, hr⟩ | ⟨_, hr⟩⟩⟩
    · rw [hok] at hf
      exact Bool.noConfusion hf
    · rw [hr] at hret
      exact outcome.noConfusion hret
    · rw [hr] at hret
      exact outcome.noConfusion hret
    · rw [hr] at hret
      simp only [outcome.returned.injEq] at hret
      rw [hs1]
      exact hret.1.symm

/-- C19 at the input `"a,b\n1\n2,3\n"`: the first call throws on the line `"1"`
with `a -> 1` written in the row and `line_no = 1`; the next call, on the same
row, reads `"2,3"` and returns `a -> 2, b -> 3` with `line_no = 2`. -/
theorem arity_error_not_atomic_witness :
    (tokenize "1".toList ',').length < ab_short_then_full_stream.header.length ∧
    ab_short_then_full_stream.operator_rshift [] =
      outcome.thrown ⟨"Number of items in row does not match header. :L1".toList⟩
        { ab_short_then_full_stream with is := stringstream "2,3\n".toList, line_no := 1 }
        [("a".toList, "1".toList)] ∧
    csvstream.operator_rshift
        { ab_short_then_full_stream with is := stringstream "2,3\n".toList, line_no := 1 }
        [("a".toList, "1".toList)] =
      outcome.returned
        { ab_short_then_full_stream with is := stringstream [], line_no := 2 }
        [("a".toList, "2".toList), ("b".toList, "3".toList)] ∧
    ({ ab_short_then_full_stream with is := stringstream "2,3\n".toList, line_no := 1 }
        : csvstream) =
      { ab_short_then_full_stream with
        is := stringstream "2,3\n".toList, line_no := ab_short_then_full_stream.line_no + 1 } :=
  ⟨by decide, by decide, by decide,
    (arity_error_not_atomic ab_short_then_full_stream
      { ab_short_then_full_stream with is := stringstream "2,3\n".toList, line_no := 1 }
      [] [("a".toList, "1".toList)] (stringstream "2,3\n".toList) "1".toList
      ⟨"Number of items in row does not match header. :L1".toList⟩
      (by decide) (by decide) (by decide)).1⟩

/-- C20 (the message of the arity exception): for an object built from the
path `test.csv`, whose content is `"a,b\n1\n"`, the member `filename` is empty
and the message of the exception thrown by the first `operator>>` is
"Number of items in row does not match header. :L1", without the path. -/
theorem arity_error_message_omits_path :
    (csvstream.from_file test_fs "test.csv".toList ',').map
        (fun s => (s.filename, s.operator_rshift [])) =
      .ok ([], outcome.thrown
        ⟨"Number of items in row does not match header. :L1".toList⟩
        { is := stringstream [], filename := [], delimiter := ',', line_no := 1,
          header := ["a".toList, "b".toList] }
        [("a".toList, "1".toList)]) ∧
    ("Number of items in row does not match header. :L1".toList ≠
      "Number of items in row does not match header. test.csv:L1".toList) := by
  decide

end Csv
